import Mathlib

/-!
Verification of the headless-markets governance and launch engine.

The authoritative code is the pair of Solidity contracts `AgentQuorum` and
`BondingCurveFactory` from `src/app/launch/page.tsx`, together with the
relational schema in `src/db/schema.sql`.  The contracts are embedded
shallowly: contract storage becomes a Lean structure, each external function
becomes a total Lean function returning `Except` (a revert leaves the state
unchanged, which the step function `qstep` makes explicit), `block.timestamp`
is passed in as an explicit `now : Nat`, and Solidity mappings become
association lists or Lean functions.
-/

namespace HeadlessMarkets

/-- An address-like identifier (Solidity `address`); `0` plays `address(0)`. -/
abbrev Address := Nat

/-- `enum ProposalStatus` from `AgentQuorum`. -/
inductive ProposalStatus where
  | Active
  | Passed
  | Failed
  | Executed
deriving DecidableEq, Repr

/-- Typed revert reasons of `AgentQuorum` and `BondingCurveFactory`
(one constructor per distinct `require` message reached by the embedding). -/
inductive QErr where
  | notAdmin
  | notVerifiedAgent
  | noSuchProposal
  | proposalNotActive
  | votingEnded
  | quorumTooSmall
  | quorumTooLarge
  | invalidQuorumMember
  | duplicateMember
  | proposerNotInQuorum
  | notQuorumMember
  | alreadyVoted
  | votingNotEnded
  | onlyFactory
  | proposalNotPassed
  | agentAlreadyVerified
  | agentNotVerified
  | zeroFactory
  | alreadyLaunched
deriving DecidableEq, Repr

/-- `struct Proposal` of `AgentQuorum`; the two mappings `hasVoted` and
`voteChoice` are fused into the association list `votes` (a pair
`(a, v)` records that `a` has voted, with choice `v`). -/
structure Proposal where
  proposalId : Nat
  proposer : Address
  tokenName : String
  tokenSymbol : String
  description : String
  quorumMembers : List Address
  votes : List (Address × Bool)
  yesVotes : Nat
  noVotes : Nat
  createdAt : Nat
  votingDeadline : Nat
  status : ProposalStatus
deriving DecidableEq, Repr

/-- Contract storage of `AgentQuorum`; `proposals`/`proposalCount` become a
list indexed by proposal id. -/
structure QuorumState where
  proposals : List Proposal
  verifiedAgents : Address → Bool
  agentReputation : Address → Nat
  admin : Address
  bondingCurveFactory : Address

/-- `VOTING_PERIOD = 7 days` (in seconds). -/
def VOTING_PERIOD : Nat := 7 * 86400

/-- `MIN_QUORUM_SIZE`. -/
def MIN_QUORUM_SIZE : Nat := 3

/-- `MAX_QUORUM_SIZE`. -/
def MAX_QUORUM_SIZE : Nat := 5

/-- Lookup of the `voteChoice` mapping in the fused vote list. -/
def findVote : List (Address × Bool) → Address → Option Bool
  | [], _ => none
  | (x, v) :: rest, a => if x = a then some v else findVote rest a

/-- The `hasVoted` mapping in the fused vote list. -/
def hasVotedIn (votes : List (Address × Bool)) (a : Address) : Bool :=
  votes.any (fun x => decide (x.1 = a))

/-- Number of recorded votes with choice `b`. -/
def countVotes (b : Bool) : List (Address × Bool) → Nat
  | [] => 0
  | (_, v) :: rest => (if v = b then 1 else 0) + countVotes b rest

/-- Replace the element at an index, keeping the list otherwise
(the effect of writing one slot of the `proposals` mapping). -/
def setIdx {α : Type} : List α → Nat → α → List α
  | [], _, _ => []
  | _ :: rest, 0, x => x :: rest
  | y :: rest, n + 1, x => y :: setIdx rest n x

/-- Number of occurrences of an address in a list. -/
def countOcc (a : Address) : List Address → Nat
  | [] => 0
  | x :: rest => (if x = a then 1 else 0) + countOcc a rest

/-- The member-validation loop of `createProposal`: for each member in order,
first `require(verifiedAgents[members[i]])`, then the inner duplicate scan
over the later members. -/
def checkMembers (verified : Address → Bool) : List Address → Except QErr Unit
  | [] => .ok ()
  | m :: rest =>
    if verified m = false then .error .invalidQuorumMember
    else if m ∈ rest then .error .duplicateMember
    else checkMembers verified rest

/-- The reputation loop of `executeProposal`:
`for i: agentReputation[quorumMembers[i]]++`. -/
def bumpReputation (rep : Address → Nat) : List Address → (Address → Nat)
  | [] => rep
  | m :: rest => bumpReputation (fun a => if a = m then rep a + 1 else rep a) rest

/-- `verifyAgent` (admin only). -/
def verifyAgent (s : QuorumState) (caller agent : Address) : Except QErr QuorumState :=
  if caller ≠ s.admin then .error .notAdmin
  else if s.verifiedAgents agent then .error .agentAlreadyVerified
  else .ok { s with verifiedAgents := fun a => if a = agent then true else s.verifiedAgents a }

/-- `unverifyAgent` (admin only). -/
def unverifyAgent (s : QuorumState) (caller agent : Address) : Except QErr QuorumState :=
  if caller ≠ s.admin then .error .notAdmin
  else if s.verifiedAgents agent = false then .error .agentNotVerified
  else .ok { s with verifiedAgents := fun a => if a = agent then false else s.verifiedAgents a }

/-- `setBondingCurveFactory` (admin only). -/
def setBondingCurveFactory (s : QuorumState) (caller factory : Address) :
    Except QErr QuorumState :=
  if caller ≠ s.admin then .error .notAdmin
  else if factory = 0 then .error .zeroFactory
  else .ok { s with bondingCurveFactory := factory }

/-- The proposal allocated by a successful `createProposal`. -/
def newProposal (pid : Nat) (caller : Address) (tokenName tokenSymbol description : String)
    (members : List Address) (now : Nat) : Proposal :=
  { proposalId := pid
    proposer := caller
    tokenName := tokenName
    tokenSymbol := tokenSymbol
    description := description
    quorumMembers := members
    votes := []
    yesVotes := 0
    noVotes := 0
    createdAt := now
    votingDeadline := now + VOTING_PERIOD
    status := .Active }

/-- `createProposal`: caller must be a verified agent; the member list must
have between `MIN_QUORUM_SIZE` and `MAX_QUORUM_SIZE` entries, all verified and
pairwise distinct, and contain the caller.  Returns the new state and the
freshly assigned id (`proposalCount++`). -/
def createProposal (s : QuorumState) (caller : Address)
    (tokenName tokenSymbol description : String) (members : List Address)
    (now : Nat) : Except QErr (QuorumState × Nat) :=
  if s.verifiedAgents caller = false then .error .notVerifiedAgent
  else if members.length < MIN_QUORUM_SIZE then .error .quorumTooSmall
  else if members.length > MAX_QUORUM_SIZE then .error .quorumTooLarge
  else
    match checkMembers s.verifiedAgents members with
    | .error e => .error e
    | .ok () =>
      if caller ∉ members then .error .proposerNotInQuorum
      else
        let pid := s.proposals.length
        .ok ({ s with proposals :=
                 s.proposals ++ [newProposal pid caller tokenName tokenSymbol description members now] },
             pid)

/-- The vote-recording effect of `castVote`: set `hasVoted`/`voteChoice` and
bump the matching counter. -/
def recordVote (p : Proposal) (caller : Address) (vote : Bool) : Proposal :=
  { p with votes := (caller, vote) :: p.votes
           yesVotes := if vote then p.yesVotes + 1 else p.yesVotes
           noVotes := if vote then p.noVotes else p.noVotes + 1 }

/-- `_checkProposalStatus`: any no vote fails the proposal immediately;
a unanimous yes count passes it; otherwise it stays as it is. -/
def checkProposalStatus (p : Proposal) : Proposal :=
  if 0 < p.noVotes then { p with status := .Failed }
  else if p.yesVotes = p.quorumMembers.length then { p with status := .Passed }
  else p

/-- `castVote` with its modifiers `proposalExists` and `proposalActive`:
the caller must be a quorum member who has not voted, the proposal must be
`Active` and the deadline must not have passed. -/
def castVote (s : QuorumState) (caller : Address) (pid : Nat) (vote : Bool)
    (now : Nat) : Except QErr QuorumState :=
  match s.proposals.get? pid with
  | none => .error .noSuchProposal
  | some p =>
    if p.status ≠ .Active then .error .proposalNotActive
    else if p.votingDeadline < now then .error .votingEnded
    else if caller ∉ p.quorumMembers then .error .notQuorumMember
    else if hasVotedIn p.votes caller then .error .alreadyVoted
    else .ok { s with proposals := setIdx s.proposals pid (checkProposalStatus (recordVote p caller vote)) }

/-- `finalizeProposal`: callable by anyone (the Solidity function takes no
caller-dependent branch, so the embedding has no caller argument); requires an
`Active` proposal past its deadline, and fails it when the yes count is not
unanimous, leaving the recorded votes untouched. -/
def finalizeProposal (s : QuorumState) (pid : Nat) (now : Nat) : Except QErr QuorumState :=
  match s.proposals.get? pid with
  | none => .error .noSuchProposal
  | some p =>
    if p.status ≠ .Active then .error .proposalNotActive
    else if now ≤ p.votingDeadline then .error .votingNotEnded
    else if p.yesVotes ≠ p.quorumMembers.length then
      .ok { s with proposals := setIdx s.proposals pid { p with status := .Failed } }
    else .ok s

/-- `executeProposal`: only the registered bonding-curve factory may call it;
requires `Passed`; marks the proposal `Executed` and bumps every quorum
member's reputation.  (In Solidity a missing id reads the zero struct, whose
status `Active` fails the `Passed` check, hence `proposalNotPassed`.) -/
def executeProposal (s : QuorumState) (caller : Address) (pid : Nat) :
    Except QErr QuorumState :=
  if caller ≠ s.bondingCurveFactory then .error .onlyFactory
  else
    match s.proposals.get? pid with
    | none => .error .proposalNotPassed
    | some p =>
      if p.status ≠ .Passed then .error .proposalNotPassed
      else .ok { s with
                   proposals := setIdx s.proposals pid { p with status := .Executed }
                   agentReputation := bumpReputation s.agentReputation p.quorumMembers }

/-- One external call into `AgentQuorum`. -/
inductive QAction where
  | create (caller : Address) (tokenName tokenSymbol description : String)
      (members : List Address) (now : Nat)
  | vote (caller : Address) (pid : Nat) (v : Bool) (now : Nat)
  | finalize (pid : Nat) (now : Nat)
  | execute (caller : Address) (pid : Nat)
  | verify (caller agent : Address)
  | unverify (caller agent : Address)
  | setFactory (caller factory : Address)

/-- Dispatch one call. -/
def qapply (s : QuorumState) : QAction → Except QErr QuorumState
  | .create caller n sym d ms now =>
      (createProposal s caller n sym d ms now).map (fun r => r.1)
  | .vote caller pid v now => castVote s caller pid v now
  | .finalize pid now => finalizeProposal s pid now
  | .execute caller pid => executeProposal s caller pid
  | .verify caller agent => verifyAgent s caller agent
  | .unverify caller agent => unverifyAgent s caller agent
  | .setFactory caller factory => setBondingCurveFactory s caller factory

/-- Transaction semantics: a revert leaves the ledger unchanged. -/
def qstep (s : QuorumState) (a : QAction) : QuorumState :=
  match qapply s a with
  | .ok s' => s'
  | .error _ => s

/-- Run a sequence of external calls. -/
def qrun (s : QuorumState) : List QAction → QuorumState
  | [] => s
  | a :: rest => qrun (qstep s a) rest

/-- The freshly deployed `AgentQuorum` contract (constructor sets the admin). -/
def initialQuorum (admin : Address) : QuorumState :=
  { proposals := []
    verifiedAgents := fun _ => false
    agentReputation := fun _ => 0
    admin := admin
    bondingCurveFactory := 0 }

/-- Storage of `BondingCurveFactory` together with the `AgentQuorum` instance
it talks to.  `proposalToToken` maps a proposal id to the launched token
address (`none` plays `address(0)`, the not-yet-launched sentinel), and
`factoryAddr` is the deployed address of the factory contract itself (the
`msg.sender` seen by `quorumContract.executeProposal`). -/
structure FactoryState where
  quorum : QuorumState
  proposalToToken : Nat → Option Address
  allTokens : List Address
  factoryAddr : Address

/-- Address allocation for `new BondingCurveToken(...)`: a fresh nonzero
address per created token. -/
def freshTokenAddr (fs : FactoryState) : Address :=
  1000000 + fs.allTokens.length

/-- `launchToken`: callable by anyone; reads the proposal, requires
`status == Passed` and no token recorded for the id, then creates the token,
records the linkage and calls `executeProposal` on the quorum contract — all
inside one transaction, so a revert anywhere (embedded as `Except.error`)
leaves every piece of state unchanged. -/
def launchToken (fs : FactoryState) (_caller : Address) (pid : Nat) :
    Except QErr (FactoryState × Address) :=
  match fs.quorum.proposals.get? pid with
  | none => .error .noSuchProposal
  | some p =>
    if p.status ≠ .Passed then .error .proposalNotPassed
    else if (fs.proposalToToken pid).isSome then .error .alreadyLaunched
    else
      let token := freshTokenAddr fs
      match executeProposal fs.quorum fs.factoryAddr pid with
      | .error e => .error e
      | .ok q' =>
        .ok ({ fs with
                 quorum := q'
                 proposalToToken := fun q => if q = pid then some token else fs.proposalToToken q
                 allTokens := fs.allTokens ++ [token] },
             token)

/-- Transaction semantics of a `launchToken` call: a revert changes nothing. -/
def fstep (fs : FactoryState) (caller : Address) (pid : Nat) : FactoryState :=
  match launchToken fs caller pid with
  | .ok r => r.1
  | .error _ => fs

/-! ## The curve market

`BondingCurve.sol` (the `BondingCurveToken` contract) is referenced by
`BondingCurveFactory` but its source is not in the repository; the market
below is modelled from the spec (§3 Market, §4.3 Curve Market, §4.4
graduation migration) and from the `markets` table of `src/db/schema.sql`,
which fixes the default fee split and the fee-sum check constraint. -/

/-- Typed failures of the market operations (spec §4.3/§7). -/
inductive MErr where
  | marketClosed
  | zeroAmount
  | supplyExceeded
  | insufficientSupply
  | insufficientRaisedBalance
  | notGraduated
deriving DecidableEq, Repr

/-- `platform_fee_bps INTEGER DEFAULT 3000` (30%), from `src/db/schema.sql`. -/
def platformBpsDefault : Nat := 3000

/-- `liquidity_fee_bps INTEGER DEFAULT 6000` (60%), from `src/db/schema.sql`. -/
def liquidityBpsDefault : Nat := 6000

/-- `agent_fee_bps INTEGER DEFAULT 1000` (10%), from `src/db/schema.sql`. -/
def agentBpsDefault : Nat := 1000

/-- The `valid_fees` CHECK constraint of the `markets` table:
`platform_fee_bps + liquidity_fee_bps + agent_fee_bps = 10000`. -/
def validFees (platformBps liquidityBps agentBps : Nat) : Prop :=
  platformBps + liquidityBps + agentBps = 10000

/-- One append-only trade record (spec §3, `trades` table of the schema):
`feeBase` is the amount the basis-point split was applied to. -/
structure Trade where
  isBuy : Bool
  ethAmount : Nat
  tokenAmount : Nat
  feeBase : Nat
  platformFee : Nat
  liquidityFee : Nat
  agentFee : Nat
  supplyAfter : Nat
deriving DecidableEq, Repr

/-- Modelled from the spec: a Curve Market instance (spec §3), with the
fee-split configuration fixed at creation, the one-way `graduated` latch, the
per-class fee ledgers and the append-only trade log. -/
structure Market where
  totalSupplyCap : Nat
  currentSupply : Nat
  ethRaised : Nat
  basePrice : Nat
  slope : Nat
  platformBps : Nat
  liquidityBps : Nat
  agentBps : Nat
  graduated : Bool
  migrated : Bool
  graduationThreshold : Nat
  platformLedger : Nat
  liquidityLedger : Nat
  agentLedger : Nat
  trades : List Trade
deriving DecidableEq, Repr

/-- Modelled from the spec: split a fee base into platform/liquidity/agent
shares by basis points (spec §4.3).  The platform and agent shares truncate
(`base * bps / 10000`); the liquidity share receives the whole remainder, so
the split is exact and rounds in the protocol's favor (spec's numeric policy:
the liquidity ledger, which seeds the migration, never loses the dust). -/
def splitFees (base platformBps liquidityBps agentBps : Nat) : Nat × Nat × Nat :=
  let platformFee := base * platformBps / 10000
  let agentFee := base * agentBps / 10000
  let liquidityFee := base - platformFee - agentFee
  (platformFee, liquidityFee, agentFee)

/-- Modelled from the spec: closed-form quadratic solve for the token delta a
buyer receives for `funds` on the linear curve `price s = basePrice + slope * s`
(spec §4.3, rounding down, i.e. in the protocol's favor). -/
def tokensOut (m : Market) (funds : Nat) : Nat :=
  if m.slope = 0 then (if m.basePrice = 0 then 0 else funds / m.basePrice)
  else
    let cur := m.basePrice + m.slope * m.currentSupply
    (Nat.sqrt (cur * cur + 2 * m.slope * funds) - cur) / m.slope

/-- Modelled from the spec: inverse of the price integral, the gross ETH
refund for selling `d` tokens down from the current supply (spec §4.3). -/
def refundFor (m : Market) (d : Nat) : Nat :=
  d * m.basePrice + m.slope * d * (2 * m.currentSupply - d) / 2

/-- Modelled from the spec: the sell fee rate.  The spec fixes the 30/60/10
split of the fee portion of a sell refund but leaves the rate that defines
that portion open; the fee-split invariant below holds for any value. -/
def SELL_FEE_BPS : Nat := 100

/-- The trade record appended by a successful buy. -/
def buyTrade (m : Market) (ethAmount : Nat) : Trade :=
  { isBuy := true
    ethAmount := ethAmount
    tokenAmount := tokensOut m ethAmount
    feeBase := ethAmount
    platformFee := (splitFees ethAmount m.platformBps m.liquidityBps m.agentBps).1
    liquidityFee := (splitFees ethAmount m.platformBps m.liquidityBps m.agentBps).2.1
    agentFee := (splitFees ethAmount m.platformBps m.liquidityBps m.agentBps).2.2
    supplyAfter := m.currentSupply + tokensOut m ethAmount }

/-- The state update performed by a successful buy. -/
def buyUpdated (m : Market) (ethAmount : Nat) : Market :=
  { m with
      currentSupply := m.currentSupply + tokensOut m ethAmount
      ethRaised := m.ethRaised + ethAmount
      platformLedger :=
        m.platformLedger + (splitFees ethAmount m.platformBps m.liquidityBps m.agentBps).1
      liquidityLedger :=
        m.liquidityLedger + (splitFees ethAmount m.platformBps m.liquidityBps m.agentBps).2.1
      agentLedger :=
        m.agentLedger + (splitFees ethAmount m.platformBps m.liquidityBps m.agentBps).2.2
      trades := m.trades ++ [buyTrade m ethAmount]
      graduated :=
        if m.graduationThreshold ≤ m.ethRaised + ethAmount then true else m.graduated }

/-- Modelled from the spec: `buy(ethAmount)` (spec §4.3).  Rejects a
graduated market (`MarketClosed`), a zero payment and a supply-cap overflow;
otherwise splits the payment into the three ledgers, mints the token delta,
appends a trade record and finally latches `graduated` when `ethRaised`
crosses the threshold. -/
def buy (m : Market) (ethAmount : Nat) : Except MErr Market :=
  if m.graduated then .error .marketClosed
  else if ethAmount = 0 then .error .zeroAmount
  else if m.totalSupplyCap < m.currentSupply + tokensOut m ethAmount then
    .error .supplyExceeded
  else .ok (buyUpdated m ethAmount)

/-- The fee base of a sell: the fee portion of the gross refund. -/
def sellFeeBase (m : Market) (tokenAmount : Nat) : Nat :=
  refundFor m tokenAmount * SELL_FEE_BPS / 10000

/-- The trade record appended by a successful sell. -/
def sellTrade (m : Market) (tokenAmount : Nat) : Trade :=
  { isBuy := false
    ethAmount := refundFor m tokenAmount
    tokenAmount := tokenAmount
    feeBase := sellFeeBase m tokenAmount
    platformFee := (splitFees (sellFeeBase m tokenAmount) m.platformBps m.liquidityBps m.agentBps).1
    liquidityFee := (splitFees (sellFeeBase m tokenAmount) m.platformBps m.liquidityBps m.agentBps).2.1
    agentFee := (splitFees (sellFeeBase m tokenAmount) m.platformBps m.liquidityBps m.agentBps).2.2
    supplyAfter := m.currentSupply - tokenAmount }

/-- The state update performed by a successful sell. -/
def sellUpdated (m : Market) (tokenAmount : Nat) : Market :=
  { m with
      currentSupply := m.currentSupply - tokenAmount
      ethRaised := m.ethRaised - refundFor m tokenAmount
      platformLedger :=
        m.platformLedger +
          (splitFees (sellFeeBase m tokenAmount) m.platformBps m.liquidityBps m.agentBps).1
      liquidityLedger :=
        m.liquidityLedger +
          (splitFees (sellFeeBase m tokenAmount) m.platformBps m.liquidityBps m.agentBps).2.1
      agentLedger :=
        m.agentLedger +
          (splitFees (sellFeeBase m tokenAmount) m.platformBps m.liquidityBps m.agentBps).2.2
      trades := m.trades ++ [sellTrade m tokenAmount] }

/-- Modelled from the spec: `sell(tokenAmount)` (spec §4.3).  Rejects a
graduated market (`MarketClosed`); burns the tokens, refunds the gross
proceeds net of the fee portion, splits that fee portion into the three
ledgers, and fails with `InsufficientRaisedBalance` instead of letting
`ethRaised` underflow. -/
def sell (m : Market) (tokenAmount : Nat) : Except MErr Market :=
  if m.graduated then .error .marketClosed
  else if tokenAmount = 0 then .error .zeroAmount
  else if m.currentSupply < tokenAmount then .error .insufficientSupply
  else if m.ethRaised < refundFor m tokenAmount then .error .insufficientRaisedBalance
  else .ok (sellUpdated m tokenAmount)

/-- Modelled from the spec: the graduation migration (spec §4.4).  Requires a
graduated market; on first call it moves the liquidity-share balance out and
marks the market migrated; a repeated call is an idempotent no-op success. -/
def migrate (m : Market) : Except MErr Market :=
  if m.graduated = false then .error .notGraduated
  else if m.migrated then .ok m
  else .ok { m with migrated := true, liquidityLedger := 0 }

/-- Modelled from the spec: a fresh Curve Market instance created by the
Orchestrator, with the protocol-default fee split of the schema. -/
def createMarket (cap basePrice slope threshold : Nat) : Market :=
  { totalSupplyCap := cap
    currentSupply := 0
    ethRaised := 0
    basePrice := basePrice
    slope := slope
    platformBps := platformBpsDefault
    liquidityBps := liquidityBpsDefault
    agentBps := agentBpsDefault
    graduated := false
    migrated := false
    graduationThreshold := threshold
    platformLedger := 0
    liquidityLedger := 0
    agentLedger := 0
    trades := [] }

/-- One external call into a market. -/
inductive MAction where
  | buyA (ethAmount : Nat)
  | sellA (tokenAmount : Nat)
  | migrateA

/-- Dispatch one market call. -/
def mapply (m : Market) : MAction → Except MErr Market
  | .buyA e => buy m e
  | .sellA a => sell m a
  | .migrateA => migrate m

/-- Transaction semantics: a failed market call leaves the market unchanged. -/
def mstep (m : Market) (a : MAction) : Market :=
  match mapply m a with
  | .ok m' => m'
  | .error _ => m

/-- Run a sequence of market calls. -/
def mrun (m : Market) : List MAction → Market
  | [] => m
  | a :: rest => mrun (mstep m a) rest

/-! ## Helper lemmas -/

theorem setIdx_length {α : Type} (l : List α) (i : Nat) (x : α) :
    (setIdx l i x).length = l.length := by
  induction l generalizing i with
  | nil => rfl
  | cons y rest ih =>
    cases i with
    | zero => rfl
    | succ n => simpa [setIdx] using ih n

theorem get?_setIdx_self {α : Type} (l : List α) (i : Nat) (x : α)
    (h : i < l.length) : (setIdx l i x).get? i = some x := by
  induction l generalizing i with
  | nil => simp at h
  | cons y rest ih =>
    cases i with
    | zero => rfl
    | succ n =>
      simp only [List.length_cons, Nat.succ_lt_succ_iff] at h
      simpa [setIdx] using ih n h

theorem get?_setIdx_ne {α : Type} (l : List α) (i j : Nat) (x : α)
    (h : j ≠ i) : (setIdx l i x).get? j = l.get? j := by
  induction l generalizing i j with
  | nil => rfl
  | cons y rest ih =>
    cases i with
    | zero =>
      cases j with
      | zero => exact absurd rfl h
      | succ n => rfl
    | succ n =>
      cases j with
      | zero => rfl
      | succ k =>
        have : k ≠ n := fun hk => h (by simp [hk])
        simpa [setIdx] using ih n k this

theorem mem_setIdx {α : Type} {l : List α} {i : Nat} {x q : α}
    (h : q ∈ setIdx l i x) : q ∈ l ∨ q = x := by
  induction l generalizing i with
  | nil => simp [setIdx] at h
  | cons y rest ih =>
    cases i with
    | zero =>
      rcases List.mem_cons.mp h with h | h
      · exact Or.inr h
      · exact Or.inl (List.mem_cons_of_mem _ h)
    | succ n =>
      rcases List.mem_cons.mp h with h | h
      · exact Or.inl (by simp [h])
      · rcases ih h with h | h
        · exact Or.inl (List.mem_cons_of_mem _ h)
        · exact Or.inr h

theorem get?_append_left {α : Type} (l l' : List α) (i : Nat)
    (h : i < l.length) : (l ++ l').get? i = l.get? i := by
  induction l generalizing i with
  | nil => simp at h
  | cons y rest ih =>
    cases i with
    | zero => rfl
    | succ n =>
      simp only [List.length_cons, Nat.succ_lt_succ_iff] at h
      simpa using ih n h

theorem get?_concat_self {α : Type} (l : List α) (x : α) :
    (l ++ [x]).get? l.length = some x := by
  induction l with
  | nil => rfl
  | cons y rest ih => simp [ih]

/-! Vote-list lemmas. -/

theorem hasVotedIn_eq_false {votes : List (Address × Bool)} {a : Address}
    (h : hasVotedIn votes a = false) : ∀ x ∈ votes, x.1 ≠ a := by
  intro x hx
  have := List.any_eq_false.mp h x hx
  simpa using this

theorem hasVotedIn_eq_false_of_not_key {votes : List (Address × Bool)} {a : Address}
    (h : ∀ x ∈ votes, x.1 ≠ a) : hasVotedIn votes a = false := by
  apply List.any_eq_false.mpr
  intro x hx
  simpa using h x hx

theorem findVote_mem {votes : List (Address × Bool)} {a : Address} {v : Bool}
    (h : findVote votes a = some v) : (a, v) ∈ votes := by
  induction votes with
  | nil => simp [findVote] at h
  | cons x rest ih =>
    obtain ⟨y, w⟩ := x
    by_cases hy : y = a
    · subst hy
      simp [findVote] at h
      simp [h]
    · simp [findVote, hy] at h
      exact List.mem_cons_of_mem _ (ih h)

theorem findVote_of_mem_of_nodup {votes : List (Address × Bool)} {a : Address} {v : Bool}
    (hn : (votes.map Prod.fst).Nodup) (h : (a, v) ∈ votes) :
    findVote votes a = some v := by
  induction votes with
  | nil => simp at h
  | cons x rest ih =>
    obtain ⟨y, w⟩ := x
    simp only [List.map_cons, List.nodup_cons] at hn
    rcases List.mem_cons.mp h with h | h
    · obtain ⟨h1, h2⟩ := Prod.mk.injEq .. ▸ h
      obtain ⟨rfl, rfl⟩ := Prod.mk.inj h.symm
      simp [findVote]
    · by_cases hy : y = a
      · subst hy
        exact absurd (List.mem_map_of_mem Prod.fst h) hn.1
      · simp only [findVote, hy, if_false]
        exact ih hn.2 h

theorem findVote_some_of_mem_keys {votes : List (Address × Bool)} {a : Address}
    (h : a ∈ votes.map Prod.fst) : ∃ v, findVote votes a = some v := by
  induction votes with
  | nil => simp at h
  | cons x rest ih =>
    obtain ⟨y, w⟩ := x
    by_cases hy : y = a
    · exact ⟨w, by simp [findVote, hy]⟩
    · simp only [List.map_cons, List.mem_cons] at h
      rcases h with h | h
      · exact absurd h.symm hy
      · simpa [findVote, hy] using ih h

theorem mem_keys_of_findVote_some {votes : List (Address × Bool)} {a : Address} {v : Bool}
    (h : findVote votes a = some v) : a ∈ votes.map Prod.fst :=
  List.mem_map_of_mem Prod.fst (findVote_mem h)

theorem countVotes_add_eq_length (votes : List (Address × Bool)) :
    countVotes true votes + countVotes false votes = votes.length := by
  induction votes with
  | nil => rfl
  | cons x rest ih =>
    obtain ⟨y, w⟩ := x
    cases w <;> simp [countVotes] <;> omega

theorem countVotes_false_eq_zero {votes : List (Address × Bool)}
    (h : countVotes false votes = 0) : ∀ x ∈ votes, x.2 = true := by
  induction votes with
  | nil => simp
  | cons x rest ih =>
    obtain ⟨y, w⟩ := x
    cases w
    · simp [countVotes] at h
    · simp [countVotes] at h
      intro z hz
      rcases List.mem_cons.mp hz with hz | hz
      · simp [hz]
      · exact ih h z hz

theorem countVotes_false_of_all_true {votes : List (Address × Bool)}
    (h : ∀ x ∈ votes, x.2 = true) : countVotes false votes = 0 := by
  induction votes with
  | nil => rfl
  | cons x rest ih =>
    obtain ⟨y, w⟩ := x
    have hx : w = true := h (y, w) (List.mem_cons_self _ rest)
    subst hx
    simpa [countVotes] using ih fun z hz => h z (List.mem_cons_of_mem _ hz)

/-! Key-counting lemmas used for the unanimity argument. -/

theorem keys_subset_of_votes {votes : List (Address × Bool)} {members : List Address}
    (hsub : ∀ x ∈ votes, x.1 ∈ members) : votes.map Prod.fst ⊆ members := by
  intro a ha
  obtain ⟨x, hx, rfl⟩ := List.mem_map.mp ha
  exact hsub x hx

theorem votes_length_le {votes : List (Address × Bool)} {members : List Address}
    (hk : (votes.map Prod.fst).Nodup) (hsub : ∀ x ∈ votes, x.1 ∈ members) :
    votes.length ≤ members.length := by
  have h := (hk.subperm (keys_subset_of_votes hsub)).length_le
  simpa using h

theorem mem_keys_of_full {votes : List (Address × Bool)} {members : List Address}
    (hk : (votes.map Prod.fst).Nodup) (hsub : ∀ x ∈ votes, x.1 ∈ members)
    (hlen : members.length ≤ votes.length) :
    ∀ m ∈ members, m ∈ votes.map Prod.fst := by
  have hperm := (hk.subperm (keys_subset_of_votes hsub)).perm_of_length_le
    (by simpa using hlen)
  intro m hm
  exact hperm.mem_iff.mpr hm

/-! Characterizations of the `AgentQuorum` operations. -/

theorem checkMembers_ok_iff (verified : Address → Bool) (ms : List Address) :
    checkMembers verified ms = .ok () ↔
      ((∀ m ∈ ms, verified m = true) ∧ ms.Nodup) := by
  induction ms with
  | nil => simp [checkMembers]
  | cons m rest ih =>
    unfold checkMembers
    by_cases hv : verified m = false
    · rw [if_pos hv]
      constructor
      · intro h
        cases h
      · rintro ⟨h1, _⟩
        rw [h1 m (List.mem_cons_self m rest)] at hv
        cases hv
    · rw [if_neg hv]
      have hvt : verified m = true := by
        cases hb : verified m
        · exact absurd hb hv
        · rfl
      by_cases hd : m ∈ rest
      · rw [if_pos hd]
        constructor
        · intro h
          cases h
        · rintro ⟨_, hn⟩
          rw [List.nodup_cons] at hn
          exact absurd hd hn.1
      · rw [if_neg hd, ih, List.nodup_cons]
        constructor
        · rintro ⟨h1, h2⟩
          refine ⟨?_, hd, h2⟩
          intro x hx
          rcases List.mem_cons.mp hx with hx | hx
          · subst hx
            exact hvt
          · exact h1 x hx
        · rintro ⟨h1, _, h2⟩
          exact ⟨fun x hx => h1 x (List.mem_cons_of_mem _ hx), h2⟩

theorem createProposal_ok_elim {s : QuorumState} {c : Address} {n sym d : String}
    {ms : List Address} {now : Nat} {s' : QuorumState} {pid : Nat}
    (h : createProposal s c n sym d ms now = .ok (s', pid)) :
    s.verifiedAgents c = true ∧ MIN_QUORUM_SIZE ≤ ms.length ∧ ms.length ≤ MAX_QUORUM_SIZE ∧
    (∀ m ∈ ms, s.verifiedAgents m = true) ∧ ms.Nodup ∧ c ∈ ms ∧
    pid = s.proposals.length ∧
    s' = { s with proposals := s.proposals ++ [newProposal s.proposals.length c n sym d ms now] } := by
  unfold createProposal at h
  by_cases h1 : s.verifiedAgents c = false
  · rw [if_pos h1] at h
    cases h
  rw [if_neg h1] at h
  have h1t : s.verifiedAgents c = true := by
    cases hb : s.verifiedAgents c
    · exact absurd hb h1
    · rfl
  by_cases h2 : ms.length < MIN_QUORUM_SIZE
  · rw [if_pos h2] at h
    cases h
  rw [if_neg h2] at h
  by_cases h3 : ms.length > MAX_QUORUM_SIZE
  · rw [if_pos h3] at h
    cases h
  rw [if_neg h3] at h
  cases hcm : checkMembers s.verifiedAgents ms with
  | error e =>
    rw [hcm] at h
    simp at h
  | ok u =>
    cases u
    rw [hcm] at h
    rw [checkMembers_ok_iff] at hcm
    by_cases h4 : c ∉ ms
    · simp only [if_pos h4] at h
      cases h
    simp only [if_neg h4] at h
    cases h
    exact ⟨h1t, by omega, by omega, hcm.1, hcm.2, not_not.mp h4, rfl, rfl⟩

theorem createProposal_ok_intro {s : QuorumState} {c : Address} (n sym d : String)
    {ms : List Address} (now : Nat)
    (h1 : s.verifiedAgents c = true) (h2 : MIN_QUORUM_SIZE ≤ ms.length)
    (h3 : ms.length ≤ MAX_QUORUM_SIZE) (h4 : ∀ m ∈ ms, s.verifiedAgents m = true)
    (h5 : ms.Nodup) (h6 : c ∈ ms) :
    createProposal s c n sym d ms now =
      .ok ({ s with proposals := s.proposals ++ [newProposal s.proposals.length c n sym d ms now] },
           s.proposals.length) := by
  unfold createProposal
  rw [(checkMembers_ok_iff s.verifiedAgents ms).mpr ⟨h4, h5⟩]
  rw [if_neg (by simp [h1]), if_neg (by omega), if_neg (by omega), if_neg (by simp [h6])]

theorem castVote_ok_elim {s : QuorumState} {c : Address} {pid : Nat} {v : Bool}
    {now : Nat} {s' : QuorumState}
    (h : castVote s c pid v now = .ok s') :
    ∃ p, s.proposals.get? pid = some p ∧ p.status = .Active ∧ now ≤ p.votingDeadline ∧
      c ∈ p.quorumMembers ∧ hasVotedIn p.votes c = false ∧
      s' = { s with proposals :=
               setIdx s.proposals pid (checkProposalStatus (recordVote p c v)) } := by
  unfold castVote at h
  split at h
  · cases h
  · rename_i p hp
    split at h
    · cases h
    · split at h
      · cases h
      · split at h
        · cases h
        · split at h
          · cases h
          · rename_i hst hdl hmem hvoted
            exact ⟨p, hp, not_not.mp hst, by omega, not_not.mp hmem,
              by simpa using hvoted, (Except.ok.inj h).symm⟩

theorem castVote_ok_intro {s : QuorumState} {c : Address} {pid : Nat} (v : Bool)
    {now : Nat} {p : Proposal}
    (hp : s.proposals.get? pid = some p) (hst : p.status = .Active)
    (hdl : now ≤ p.votingDeadline) (hmem : c ∈ p.quorumMembers)
    (hvoted : hasVotedIn p.votes c = false) :
    castVote s c pid v now =
      .ok { s with proposals :=
              setIdx s.proposals pid (checkProposalStatus (recordVote p c v)) } := by
  unfold castVote
  rw [hp]
  simp [hst, hmem, hvoted]
  omega

theorem finalizeProposal_ok_elim {s : QuorumState} {pid now : Nat} {s' : QuorumState}
    (h : finalizeProposal s pid now = .ok s') :
    ∃ p, s.proposals.get? pid = some p ∧ p.status = .Active ∧ p.votingDeadline < now ∧
      ((p.yesVotes ≠ p.quorumMembers.length ∧
          s' = { s with proposals := setIdx s.proposals pid { p with status := .Failed } }) ∨
       (p.yesVotes = p.quorumMembers.length ∧ s' = s)) := by
  unfold finalizeProposal at h
  split at h
  · cases h
  · rename_i p hp
    split at h
    · cases h
    · split at h
      · cases h
      · rename_i hst hdl
        split at h
        · exact ⟨p, hp, not_not.mp hst, by omega,
            Or.inl ⟨by assumption, (Except.ok.inj h).symm⟩⟩
        · exact ⟨p, hp, not_not.mp hst, by omega,
            Or.inr ⟨not_not.mp (by assumption), (Except.ok.inj h).symm⟩⟩

theorem executeProposal_ok_elim {s : QuorumState} {c : Address} {pid : Nat}
    {s' : QuorumState} (h : executeProposal s c pid = .ok s') :
    c = s.bondingCurveFactory ∧
    ∃ p, s.proposals.get? pid = some p ∧ p.status = .Passed ∧
      s' = { s with
               proposals := setIdx s.proposals pid { p with status := .Executed }
               agentReputation := bumpReputation s.agentReputation p.quorumMembers } := by
  unfold executeProposal at h
  split at h
  · cases h
  · split at h
    · cases h
    · rename_i hc _ p hp
      split at h
      · cases h
      · exact ⟨not_not.mp hc, p, hp, not_not.mp (by assumption), (Except.ok.inj h).symm⟩

theorem verifyAgent_ok_elim {s : QuorumState} {c ag : Address} {s' : QuorumState}
    (h : verifyAgent s c ag = .ok s') :
    s'.proposals = s.proposals ∧ s'.agentReputation = s.agentReputation ∧
    s'.bondingCurveFactory = s.bondingCurveFactory := by
  unfold verifyAgent at h
  split at h
  · cases h
  · split at h
    · cases h
    · cases Except.ok.inj h
      exact ⟨rfl, rfl, rfl⟩

theorem unverifyAgent_ok_elim {s : QuorumState} {c ag : Address} {s' : QuorumState}
    (h : unverifyAgent s c ag = .ok s') :
    s'.proposals = s.proposals ∧ s'.agentReputation = s.agentReputation ∧
    s'.bondingCurveFactory = s.bondingCurveFactory := by
  unfold unverifyAgent at h
  split at h
  · cases h
  · split at h
    · cases h
    · cases Except.ok.inj h
      exact ⟨rfl, rfl, rfl⟩

theorem setBondingCurveFactory_ok_elim {s : QuorumState} {c f : Address} {s' : QuorumState}
    (h : setBondingCurveFactory s c f = .ok s') :
    s'.proposals = s.proposals ∧ s'.agentReputation = s.agentReputation := by
  unfold setBondingCurveFactory at h
  split at h
  · cases h
  · split at h
    · cases h
    · cases Except.ok.inj h
      exact ⟨rfl, rfl⟩

theorem qstep_eq_or_ok (s : QuorumState) (a : QAction) :
    qstep s a = s ∨ qapply s a = .ok (qstep s a) := by
  unfold qstep
  cases h : qapply s a
  · simp
  · simp

/-! Reputation-loop lemmas. -/

theorem bumpReputation_apply (rep : Address → Nat) (ms : List Address) (a : Address) :
    bumpReputation rep ms a = rep a + countOcc a ms := by
  induction ms generalizing rep with
  | nil => simp [bumpReputation, countOcc]
  | cons m rest ih =>
    simp only [bumpReputation, countOcc, ih]
    by_cases hm : a = m
    · subst hm
      simp
      omega
    · have : ¬ (m = a) := fun hx => hm hx.symm
      simp [hm, this]

theorem countOcc_eq_zero {ms : List Address} {a : Address} (ha : a ∉ ms) :
    countOcc a ms = 0 := by
  induction ms with
  | nil => rfl
  | cons m rest ih =>
    have hm : ¬ (m = a) := fun hx => ha (by simp [hx])
    have h2 : a ∉ rest := fun h2 => ha (List.mem_cons_of_mem _ h2)
    simp [countOcc, hm, ih h2]

theorem countOcc_eq_one {ms : List Address} {a : Address}
    (hn : ms.Nodup) (ha : a ∈ ms) : countOcc a ms = 1 := by
  induction ms with
  | nil => simp at ha
  | cons m rest ih =>
    rw [List.nodup_cons] at hn
    rcases List.mem_cons.mp ha with ha | ha
    · subst ha
      simp [countOcc, countOcc_eq_zero hn.1]
    · have hm : ¬ (m = a) := fun hx => hn.1 (hx ▸ ha)
      simp [countOcc, hm, ih hn.2 ha]

/-! ## The proposal invariant

`PInv` collects the facts that hold of every proposal ever stored by
`AgentQuorum`: vote counters agree with the vote list, each vote comes from a
distinct quorum member, and the status field agrees with the tallies. -/

def PInv (p : Proposal) : Prop :=
  0 < p.quorumMembers.length ∧
  p.quorumMembers.Nodup ∧
  (p.votes.map Prod.fst).Nodup ∧
  (∀ x ∈ p.votes, x.1 ∈ p.quorumMembers) ∧
  p.yesVotes = countVotes true p.votes ∧
  p.noVotes = countVotes false p.votes ∧
  (p.status = .Active → p.noVotes = 0 ∧ p.yesVotes < p.quorumMembers.length) ∧
  ((p.status = .Passed ∨ p.status = .Executed) →
     p.noVotes = 0 ∧ p.yesVotes = p.quorumMembers.length) ∧
  (p.status = .Failed → 0 < p.noVotes ∨ p.yesVotes ≠ p.quorumMembers.length)

theorem countVotes_le_length (b : Bool) (votes : List (Address × Bool)) :
    countVotes b votes ≤ votes.length := by
  have := countVotes_add_eq_length votes
  cases b <;> omega

theorem not_mem_keys_of_hasVotedIn_false {votes : List (Address × Bool)} {c : Address}
    (hv : hasVotedIn votes c = false) : c ∉ votes.map Prod.fst := by
  intro hc
  obtain ⟨x, hx, rfl⟩ := List.mem_map.mp hc
  exact hasVotedIn_eq_false hv x hx rfl

theorem PInv_newProposal {pid : Nat} {c : Address} {n sym d : String}
    {ms : List Address} {now : Nat} (hlen : 0 < ms.length) (hnd : ms.Nodup) :
    PInv (newProposal pid c n sym d ms now) := by
  refine ⟨hlen, hnd, by simp [newProposal], by simp [newProposal], rfl, rfl,
    fun _ => ⟨rfl, hlen⟩, fun h => ?_, fun h => ?_⟩
  · rcases h with h | h <;> cases h
  · cases h

theorem PInv_castVote {p : Proposal} {c : Address} {v : Bool}
    (hI : PInv p) (hst : p.status = .Active) (hmem : c ∈ p.quorumMembers)
    (hv : hasVotedIn p.votes c = false) :
    PInv (checkProposalStatus (recordVote p c v)) := by
  obtain ⟨hlen, hmN, hkN, hsub, hyes, hno, hAct, hPE, hF⟩ := hI
  obtain ⟨hno0, hylt⟩ := hAct hst
  have hkN₁ : (((c, v) :: p.votes).map Prod.fst).Nodup := by
    rw [List.map_cons, List.nodup_cons]
    exact ⟨not_mem_keys_of_hasVotedIn_false hv, hkN⟩
  have hsub₁ : ∀ x ∈ (c, v) :: p.votes, x.1 ∈ p.quorumMembers := by
    intro x hx
    rcases List.mem_cons.mp hx with hx | hx
    · subst hx
      exact hmem
    · exact hsub x hx
  have hyes₁ : (recordVote p c v).yesVotes = countVotes true ((c, v) :: p.votes) := by
    cases v <;> simp [recordVote, countVotes] <;> omega
  have hno₁ : (recordVote p c v).noVotes = countVotes false ((c, v) :: p.votes) := by
    cases v <;> simp [recordVote, countVotes] <;> omega
  have hyle : (recordVote p c v).yesVotes ≤ p.quorumMembers.length := by
    rw [hyes₁]
    exact le_trans (countVotes_le_length true _) (votes_length_le hkN₁ hsub₁)
  unfold checkProposalStatus
  by_cases hn : 0 < (recordVote p c v).noVotes
  · rw [if_pos hn]
    refine ⟨hlen, hmN, hkN₁, hsub₁, hyes₁, hno₁, ?_, ?_, ?_⟩
    · intro h
      simp at h
    · intro h
      rcases h with h | h <;> simp at h
    · intro _
      exact Or.inl hn
  · rw [if_neg hn]
    have hn0 : (recordVote p c v).noVotes = 0 := by omega
    by_cases hy : (recordVote p c v).yesVotes = (recordVote p c v).quorumMembers.length
    · rw [if_pos hy]
      refine ⟨hlen, hmN, hkN₁, hsub₁, hyes₁, hno₁, ?_, ?_, ?_⟩
      · intro h
        simp at h
      · intro _
        exact ⟨hn0, hy⟩
      · intro h
        simp at h
    · rw [if_neg hy]
      have hstA : (recordVote p c v).status = .Active := hst
      refine ⟨hlen, hmN, hkN₁, hsub₁, hyes₁, hno₁, ?_, ?_, ?_⟩
      · intro _
        refine ⟨hn0, ?_⟩
        have hql : (recordVote p c v).quorumMembers = p.quorumMembers := rfl
        rw [hql] at hy
        rw [hql]
        omega
      · intro h
        rcases h with h | h <;> rw [hstA] at h <;> simp at h
      · intro h
        rw [hstA] at h
        simp at h

theorem PInv_setFailed {p : Proposal} (hI : PInv p)
    (hy : p.yesVotes ≠ p.quorumMembers.length) : PInv { p with status := .Failed } := by
  obtain ⟨hlen, hmN, hkN, hsub, hyes, hno, _, _, _⟩ := hI
  refine ⟨hlen, hmN, hkN, hsub, hyes, hno, ?_, ?_, ?_⟩
  · intro h
    simp at h
  · intro h
    rcases h with h | h <;> simp at h
  · intro _
    exact Or.inr hy

theorem PInv_setExecuted {p : Proposal} (hI : PInv p)
    (hst : p.status = .Passed) : PInv { p with status := .Executed } := by
  obtain ⟨hlen, hmN, hkN, hsub, hyes, hno, _, hPE, _⟩ := hI
  refine ⟨hlen, hmN, hkN, hsub, hyes, hno, ?_, ?_, ?_⟩
  · intro h
    simp at h
  · intro _
    exact hPE (Or.inl hst)
  · intro h
    simp at h

/-- Every proposal stored in the state satisfies the invariant. -/
def InvAll (s : QuorumState) : Prop := ∀ p ∈ s.proposals, PInv p

theorem InvAll_qstep (s : QuorumState) (a : QAction) (h : InvAll s) :
    InvAll (qstep s a) := by
  rcases qstep_eq_or_ok s a with he | hok
  · rw [he]
    exact h
  · cases a with
    | create caller n sym d ms now =>
      simp only [qapply, Except.map] at hok
      cases hcr : createProposal s caller n sym d ms now with
      | error e =>
        rw [hcr] at hok
        cases hok
      | ok r =>
        rw [hcr] at hok
        obtain ⟨q, pid⟩ := r
        obtain ⟨_, hmin, _, _, hnd, _, _, hq⟩ := createProposal_ok_elim hcr
        have hq' : qstep s (QAction.create caller n sym d ms now) = q := by
          cases hok
          rfl
        rw [hq', hq]
        intro p hp
        rcases List.mem_append.mp hp with hp | hp
        · exact h p hp
        · rcases List.mem_singleton.mp hp with rfl
          exact PInv_newProposal (by unfold MIN_QUORUM_SIZE at hmin; omega) hnd
    | vote caller pid v now =>
      obtain ⟨p₀, hp₀, hst, _, hmem, hnv, hs'⟩ := castVote_ok_elim hok
      rw [hs']
      intro p hp
      rcases mem_setIdx hp with hp | rfl
      · exact h p hp
      · exact PInv_castVote (h p₀ (List.get?_mem hp₀)) hst hmem hnv
    | finalize pid now =>
      obtain ⟨p₀, hp₀, hst, _, hcase⟩ := finalizeProposal_ok_elim hok
      rcases hcase with ⟨hy, hs'⟩ | ⟨_, hs'⟩
      · rw [hs']
        intro p hp
        rcases mem_setIdx hp with hp | rfl
        · exact h p hp
        · exact PInv_setFailed (h p₀ (List.get?_mem hp₀)) hy
      · rw [hs']
        exact h
    | execute caller pid =>
      obtain ⟨_, p₀, hp₀, hst, hs'⟩ := (executeProposal_ok_elim hok)
      rw [hs']
      intro p hp
      rcases mem_setIdx hp with hp | rfl
      · exact h p hp
      · exact PInv_setExecuted (h p₀ (List.get?_mem hp₀)) hst
    | verify caller agent =>
      obtain ⟨hp, _, _⟩ := verifyAgent_ok_elim hok
      intro p hmem
      rw [hp] at hmem
      exact h p hmem
    | unverify caller agent =>
      obtain ⟨hp, _, _⟩ := unverifyAgent_ok_elim hok
      intro p hmem
      rw [hp] at hmem
      exact h p hmem
    | setFactory caller factory =>
      obtain ⟨hp, _⟩ := setBondingCurveFactory_ok_elim hok
      intro p hmem
      rw [hp] at hmem
      exact h p hmem

theorem InvAll_qrun (s : QuorumState) (tr : List QAction) (h : InvAll s) :
    InvAll (qrun s tr) := by
  induction tr generalizing s with
  | nil => exact h
  | cons a rest ih => exact ih (qstep s a) (InvAll_qstep s a h)

theorem InvAll_initial (admin : Address) : InvAll (initialQuorum admin) := by
  intro p hp
  simp [initialQuorum] at hp

/-- The unanimity bridge: under the invariant, a proposal is `Passed` (or
later `Executed`) exactly when every quorum member has a recorded yes vote. -/
theorem passed_iff_all_yes_of_PInv {p : Proposal} (hI : PInv p) :
    (p.status = .Passed ∨ p.status = .Executed) ↔
      (∀ m ∈ p.quorumMembers, findVote p.votes m = some true) := by
  obtain ⟨hlen, hmN, hkN, hsub, hyes, hno, hAct, hPE, hF⟩ := hI
  constructor
  · intro hp
    obtain ⟨hn0, hyl⟩ := hPE hp
    have hcf : countVotes false p.votes = 0 := by
      rw [← hno]
      exact hn0
    have hall : ∀ x ∈ p.votes, x.2 = true := countVotes_false_eq_zero hcf
    have hct : countVotes true p.votes = p.votes.length := by
      have := countVotes_add_eq_length p.votes
      omega
    have hlenv : p.quorumMembers.length ≤ p.votes.length := by
      omega
    intro m hm
    have hk := mem_keys_of_full hkN hsub hlenv m hm
    obtain ⟨v, hv⟩ := findVote_some_of_mem_keys hk
    have hvt : v = true := hall (m, v) (findVote_mem hv)
    rw [hvt] at hv
    exact hv
  · intro hall
    have h1 : p.quorumMembers ⊆ p.votes.map Prod.fst :=
      fun m hm => mem_keys_of_findVote_some (hall m hm)
    have hlen2 : p.quorumMembers.length ≤ p.votes.length := by
      have := (hmN.subperm h1).length_le
      simpa using this
    have hall2 : ∀ x ∈ p.votes, x.2 = true := by
      intro x hx
      have hkx : x.1 ∈ p.quorumMembers := hsub x hx
      have h2 := hall x.1 hkx
      have h3 := findVote_of_mem_of_nodup hkN (show (x.1, x.2) ∈ p.votes by simpa using hx)
      rw [h2] at h3
      exact (Option.some.inj h3).symm
    have hcf : countVotes false p.votes = 0 := countVotes_false_of_all_true hall2
    have hct : countVotes true p.votes = p.votes.length := by
      have := countVotes_add_eq_length p.votes
      omega
    have hlen1 : p.votes.length ≤ p.quorumMembers.length := votes_length_le hkN hsub
    have hyl : p.yesVotes = p.quorumMembers.length := by
      omega
    have hn0 : p.noVotes = 0 := by
      rw [hno]
      exact hcf
    cases hstv : p.status with
    | Active =>
      exfalso
      obtain ⟨_, hlt⟩ := hAct hstv
      omega
    | Passed => exact Or.inl rfl
    | Failed =>
      exfalso
      rcases hF hstv with hcase | hcase
      · omega
      · exact hcase hyl
    | Executed => exact Or.inr rfl

/-! ## Market lemmas -/

theorem splitFees_parts_le {base platformBps agentBps : Nat}
    (h : platformBps + agentBps ≤ 10000) :
    base * platformBps / 10000 + base * agentBps / 10000 ≤ base := by
  have h1 : base * platformBps / 10000 + base * agentBps / 10000 ≤
      (base * platformBps + base * agentBps) / 10000 :=
    Nat.add_div_le_add_div _ _ _
  have h2 : base * platformBps + base * agentBps = base * (platformBps + agentBps) := by
    ring
  have h3 : base * (platformBps + agentBps) / 10000 ≤ base * 10000 / 10000 :=
    Nat.div_le_div_right (Nat.mul_le_mul_left base h)
  have h4 : base * 10000 / 10000 = base := Nat.mul_div_cancel base (by omega)
  omega

theorem splitFees_sum {base platformBps liquidityBps agentBps : Nat}
    (h : validFees platformBps liquidityBps agentBps) :
    (splitFees base platformBps liquidityBps agentBps).1 +
      (splitFees base platformBps liquidityBps agentBps).2.1 +
      (splitFees base platformBps liquidityBps agentBps).2.2 =
    base * (platformBps + liquidityBps + agentBps) / 10000 := by
  unfold validFees at h
  have hle : base * platformBps / 10000 + base * agentBps / 10000 ≤ base :=
    splitFees_parts_le (by omega)
  have hc : base * 10000 / 10000 = base := Nat.mul_div_cancel base (by omega)
  simp only [splitFees]
  rw [h, hc]
  omega

theorem buy_ok_elim {m : Market} {e : Nat} {m' : Market}
    (h : buy m e = .ok m') :
    m.graduated = false ∧ e ≠ 0 ∧
      m.currentSupply + tokensOut m e ≤ m.totalSupplyCap ∧ m' = buyUpdated m e := by
  unfold buy at h
  split at h
  · cases h
  · split at h
    · cases h
    · split at h
      · cases h
      · rename_i hg h0 hcap
        cases h
        exact ⟨by simpa using hg, h0, by omega, rfl⟩

theorem sell_ok_elim {m : Market} {a : Nat} {m' : Market}
    (h : sell m a = .ok m') :
    m.graduated = false ∧ a ≠ 0 ∧ a ≤ m.currentSupply ∧
      refundFor m a ≤ m.ethRaised ∧ m' = sellUpdated m a := by
  unfold sell at h
  split at h
  · cases h
  · split at h
    · cases h
    · split at h
      · cases h
      · split at h
        · cases h
        · rename_i hg h0 hsup hraised
          cases h
          exact ⟨by simpa using hg, h0, by omega, by omega, rfl⟩

theorem migrate_ok_elim {m m₁ : Market} (h : migrate m = .ok m₁) :
    m.graduated = true ∧
      ((m.migrated = true ∧ m₁ = m) ∨
       (m.migrated = false ∧ m₁ = { m with migrated := true, liquidityLedger := 0 })) := by
  unfold migrate at h
  split at h
  · cases h
  · rename_i hg
    split at h
    · cases h
      exact ⟨by simpa using hg, Or.inl ⟨by assumption, rfl⟩⟩
    · cases h
      rename_i hm
      exact ⟨by simpa using hg, Or.inr ⟨by simpa using hm, rfl⟩⟩

theorem buy_closed {m : Market} (hg : m.graduated = true) (e : Nat) :
    buy m e = .error .marketClosed := by
  unfold buy
  rw [if_pos hg]

theorem sell_closed {m : Market} (hg : m.graduated = true) (a : Nat) :
    sell m a = .error .marketClosed := by
  unfold sell
  rw [if_pos hg]

theorem mstep_graduated_mono {m : Market} {a : MAction}
    (hg : m.graduated = true) : (mstep m a).graduated = true := by
  cases a with
  | buyA e =>
    simp only [mstep, mapply]
    rw [buy_closed hg]
    exact hg
  | sellA amt =>
    simp only [mstep, mapply]
    rw [sell_closed hg]
    exact hg
  | migrateA =>
    simp only [mstep, mapply]
    cases h : migrate m with
    | error e => exact hg
    | ok m₁ =>
      obtain ⟨_, hcase⟩ := migrate_ok_elim h
      rcases hcase with ⟨_, rfl⟩ | ⟨_, rfl⟩
      · exact hg
      · exact hg

theorem mrun_graduated_mono (m : Market) (acts : List MAction)
    (hg : m.graduated = true) : (mrun m acts).graduated = true := by
  induction acts generalizing m with
  | nil => exact hg
  | cons a rest ih => exact ih (mstep m a) (mstep_graduated_mono hg)

theorem mstep_bps (m : Market) (a : MAction) :
    (mstep m a).platformBps = m.platformBps ∧
    (mstep m a).liquidityBps = m.liquidityBps ∧
    (mstep m a).agentBps = m.agentBps := by
  cases a with
  | buyA e =>
    simp only [mstep, mapply]
    cases h : buy m e with
    | error _ => exact ⟨rfl, rfl, rfl⟩
    | ok m' =>
      obtain ⟨_, _, _, rfl⟩ := buy_ok_elim h
      exact ⟨rfl, rfl, rfl⟩
  | sellA amt =>
    simp only [mstep, mapply]
    cases h : sell m amt with
    | error _ => exact ⟨rfl, rfl, rfl⟩
    | ok m' =>
      obtain ⟨_, _, _, _, rfl⟩ := sell_ok_elim h
      exact ⟨rfl, rfl, rfl⟩
  | migrateA =>
    simp only [mstep, mapply]
    cases h : migrate m with
    | error _ => exact ⟨rfl, rfl, rfl⟩
    | ok m₁ =>
      obtain ⟨_, hcase⟩ := migrate_ok_elim h
      rcases hcase with ⟨_, rfl⟩ | ⟨_, rfl⟩
      · exact ⟨rfl, rfl, rfl⟩
      · exact ⟨rfl, rfl, rfl⟩

/-- Every recorded trade splits its fee base exactly by the market's basis
points. -/
def tradesOK (m : Market) : Prop :=
  ∀ tr ∈ m.trades,
    tr.platformFee + tr.liquidityFee + tr.agentFee =
      tr.feeBase * (m.platformBps + m.liquidityBps + m.agentBps) / 10000

theorem tradesOK_mstep {m : Market} (a : MAction)
    (hv : validFees m.platformBps m.liquidityBps m.agentBps)
    (h : tradesOK m) : tradesOK (mstep m a) := by
  obtain ⟨hb1, hb2, hb3⟩ := mstep_bps m a
  intro tr htr
  rw [hb1, hb2, hb3]
  cases a with
  | buyA e =>
    revert htr
    simp only [mstep, mapply]
    cases hb : buy m e with
    | error _ =>
      intro htr
      exact h tr htr
    | ok m' =>
      obtain ⟨_, _, _, rfl⟩ := buy_ok_elim hb
      intro htr
      have : tr ∈ m.trades ++ [buyTrade m e] := htr
      rcases List.mem_append.mp this with htr' | htr'
      · exact h tr htr'
      · rcases List.mem_singleton.mp htr' with rfl
        exact splitFees_sum hv
  | sellA amt =>
    revert htr
    simp only [mstep, mapply]
    cases hs : sell m amt with
    | error _ =>
      intro htr
      exact h tr htr
    | ok m' =>
      obtain ⟨_, _, _, _, rfl⟩ := sell_ok_elim hs
      intro htr
      have : tr ∈ m.trades ++ [sellTrade m amt] := htr
      rcases List.mem_append.mp this with htr' | htr'
      · exact h tr htr'
      · rcases List.mem_singleton.mp htr' with rfl
        exact splitFees_sum hv
  | migrateA =>
    revert htr
    simp only [mstep, mapply]
    cases hm : migrate m with
    | error _ =>
      intro htr
      exact h tr htr
    | ok m₁ =>
      obtain ⟨_, hcase⟩ := migrate_ok_elim hm
      rcases hcase with ⟨_, rfl⟩ | ⟨_, rfl⟩
      · intro htr
        exact h tr htr
      · intro htr
        exact h tr htr

theorem validFees_mstep {m : Market} (a : MAction)
    (hv : validFees m.platformBps m.liquidityBps m.agentBps) :
    validFees (mstep m a).platformBps (mstep m a).liquidityBps (mstep m a).agentBps := by
  obtain ⟨hb1, hb2, hb3⟩ := mstep_bps m a
  rw [hb1, hb2, hb3]
  exact hv

theorem mrun_validFees_tradesOK (m : Market) (acts : List MAction)
    (hv : validFees m.platformBps m.liquidityBps m.agentBps)
    (h : tradesOK m) :
    validFees (mrun m acts).platformBps (mrun m acts).liquidityBps (mrun m acts).agentBps ∧
      tradesOK (mrun m acts) := by
  induction acts generalizing m with
  | nil => exact ⟨hv, h⟩
  | cons a rest ih =>
    exact ih (mstep m a) (validFees_mstep a hv) (tradesOK_mstep a hv h)

/-! ## Generic facts used by the claim theorems -/

theorem lt_length_of_get?_some {α : Type} {l : List α} {n : Nat} {a : α}
    (h : l.get? n = some a) : n < l.length := by
  by_contra hn
  rw [List.get?_eq_none.mpr (by omega)] at h
  cases h

theorem checkProposalStatus_status (q : Proposal) :
    (checkProposalStatus q).status = .Failed ∨ (checkProposalStatus q).status = .Passed ∨
      checkProposalStatus q = q := by
  unfold checkProposalStatus
  by_cases h1 : 0 < q.noVotes
  · rw [if_pos h1]
    exact Or.inl rfl
  · rw [if_neg h1]
    by_cases h2 : q.yesVotes = q.quorumMembers.length
    · rw [if_pos h2]
      exact Or.inr (Or.inl rfl)
    · rw [if_neg h2]
      exact Or.inr (Or.inr rfl)

theorem recordVote_status (p : Proposal) (c : Address) (v : Bool) :
    (recordVote p c v).status = p.status := rfl

/-! ## Claim theorems -/

/-- C1: under any single `AgentQuorum` call (`createProposal`, `castVote`,
`finalizeProposal`, `executeProposal` or an admin call), the status of any
stored proposal either stays put, moves from `Active` to `Passed` or
`Failed`, or moves from `Passed` to `Executed`; in particular `Failed` and
`Executed` are terminal and no proposal ever returns to `Active`. -/
theorem proposal_status_transitions (s : QuorumState) (a : QAction) (pid : Nat)
    (p p' : Proposal) (hp : s.proposals.get? pid = some p)
    (hp' : (qstep s a).proposals.get? pid = some p') :
    p'.status = p.status ∨
    (p.status = .Active ∧ (p'.status = .Passed ∨ p'.status = .Failed)) ∨
    (p.status = .Passed ∧ p'.status = .Executed) := by
  have hlt : pid < s.proposals.length := lt_length_of_get?_some hp
  rcases qstep_eq_or_ok s a with he | hok
  · rw [he, hp] at hp'
    cases Option.some.inj hp'
    exact Or.inl rfl
  · cases a with
    | create caller n sym d ms now =>
      simp only [qapply, Except.map] at hok
      cases hcr : createProposal s caller n sym d ms now with
      | error e =>
        rw [hcr] at hok
        cases hok
      | ok r =>
        rw [hcr] at hok
        obtain ⟨q, pid'⟩ := r
        obtain ⟨_, _, _, _, _, _, _, hq⟩ := createProposal_ok_elim hcr
        have hqe : qstep s (QAction.create caller n sym d ms now) = q := by
          cases hok
          rfl
        rw [hqe, hq] at hp'
        simp only at hp'
        rw [get?_append_left _ _ _ hlt, hp] at hp'
        cases Option.some.inj hp'
        exact Or.inl rfl
    | vote caller pid₀ v now =>
      obtain ⟨p₀, hp₀, hst, _, _, _, hs'⟩ := castVote_ok_elim hok
      rw [hs'] at hp'
      simp only at hp'
      by_cases hpid : pid = pid₀
      · subst hpid
        rw [get?_setIdx_self _ _ _ hlt] at hp'
        have hpp : p₀ = p := Option.some.inj (hp₀.symm.trans hp)
        subst hpp
        cases Option.some.inj hp'
        rcases checkProposalStatus_status (recordVote p₀ caller v) with hc | hc | hc
        · exact Or.inr (Or.inl ⟨hst, Or.inr hc⟩)
        · exact Or.inr (Or.inl ⟨hst, Or.inl hc⟩)
        · rw [hc, recordVote_status]
          exact Or.inl rfl
      · rw [get?_setIdx_ne _ _ _ _ hpid, hp] at hp'
        cases Option.some.inj hp'
        exact Or.inl rfl
    | finalize pid₀ now =>
      obtain ⟨p₀, hp₀, hst, _, hcase⟩ := finalizeProposal_ok_elim hok
      rcases hcase with ⟨hy, hs'⟩ | ⟨_, hs'⟩
      · rw [hs'] at hp'
        simp only at hp'
        by_cases hpid : pid = pid₀
        · subst hpid
          rw [get?_setIdx_self _ _ _ hlt] at hp'
          have hpp : p₀ = p := Option.some.inj (hp₀.symm.trans hp)
          subst hpp
          cases Option.some.inj hp'
          exact Or.inr (Or.inl ⟨hst, Or.inr rfl⟩)
        · rw [get?_setIdx_ne _ _ _ _ hpid, hp] at hp'
          cases Option.some.inj hp'
          exact Or.inl rfl
      · rw [hs', hp] at hp'
        cases Option.some.inj hp'
        exact Or.inl rfl
    | execute caller pid₀ =>
      obtain ⟨_, p₀, hp₀, hst, hs'⟩ := executeProposal_ok_elim hok
      rw [hs'] at hp'
      simp only at hp'
      by_cases hpid : pid = pid₀
      · subst hpid
        rw [get?_setIdx_self _ _ _ hlt] at hp'
        have hpp : p₀ = p := Option.some.inj (hp₀.symm.trans hp)
        subst hpp
        cases Option.some.inj hp'
        exact Or.inr (Or.inr ⟨hst, rfl⟩)
      · rw [get?_setIdx_ne _ _ _ _ hpid, hp] at hp'
        cases Option.some.inj hp'
        exact Or.inl rfl
    | verify caller agent =>
      obtain ⟨hpe, _, _⟩ := verifyAgent_ok_elim hok
      rw [hpe, hp] at hp'
      cases Option.some.inj hp'
      exact Or.inl rfl
    | unverify caller agent =>
      obtain ⟨hpe, _, _⟩ := unverifyAgent_ok_elim hok
      rw [hpe, hp] at hp'
      cases Option.some.inj hp'
      exact Or.inl rfl
    | setFactory caller factory =>
      obtain ⟨hpe, _⟩ := setBondingCurveFactory_ok_elim hok
      rw [hpe, hp] at hp'
      cases Option.some.inj hp'
      exact Or.inl rfl

/-- A concrete deployment: admin `100` verifies agents `1`, `2`, `3` and agent
`1` opens a proposal with quorum `[1, 2, 3]` at time `0`. -/
def qsW1 : QuorumState :=
  qrun (initialQuorum 100)
    [QAction.verify 100 1, QAction.verify 100 2, QAction.verify 100 3,
     QAction.create 1 "Tok" "TOK" "demo" [1, 2, 3] 0]

/-- The proposal stored by the concrete deployment. -/
def pW1 : Proposal := newProposal 0 1 "Tok" "TOK" "demo" [1, 2, 3] 0

/-- The stored proposal after agent `1` votes yes. -/
def pW1v : Proposal := { pW1 with votes := [(1, true)], yesVotes := 1 }

/-- Witness for C1: the transition induced by a concrete yes vote. -/
theorem proposal_status_transitions_witness :
    pW1v.status = pW1.status ∨
    (pW1.status = .Active ∧ (pW1v.status = .Passed ∨ pW1v.status = .Failed)) ∨
    (pW1.status = .Passed ∧ pW1v.status = .Executed) :=
  proposal_status_transitions qsW1 (QAction.vote 1 0 true 5) 0 pW1 pW1v (by rfl) (by rfl)

/-- C2: in any state reachable from deployment, a proposal is `Passed` (or
already `Executed`) exactly when every one of its quorum members has a
recorded yes vote (each necessarily cast before the deadline, since
`castVote` rejects late votes); and a successful no vote by anyone
immediately sets the status to `Failed`, no matter how many members have not
voted. -/
theorem passed_iff_unanimous_yes :
    (∀ (admin : Address) (tr : List QAction) (pid : Nat) (p : Proposal),
        (qrun (initialQuorum admin) tr).proposals.get? pid = some p →
        ((p.status = .Passed ∨ p.status = .Executed) ↔
          ∀ m ∈ p.quorumMembers, findVote p.votes m = some true)) ∧
    (∀ (s : QuorumState) (c : Address) (pid now : Nat) (s' : QuorumState)
        (q : Proposal), castVote s c pid false now = .ok s' →
        s'.proposals.get? pid = some q → q.status = .Failed) := by
  constructor
  · intro admin tr pid p hp
    have hInv := InvAll_qrun (initialQuorum admin) tr (InvAll_initial admin)
    exact passed_iff_all_yes_of_PInv (hInv p (List.get?_mem hp))
  · intro s c pid now s' q hcast hq
    obtain ⟨p₀, hp₀, hst, _, hmem, hnv, hs'⟩ := castVote_ok_elim hcast
    rw [hs'] at hq
    simp only at hq
    have hlt : pid < s.proposals.length := lt_length_of_get?_some hp₀
    rw [get?_setIdx_self _ _ _ hlt] at hq
    cases Option.some.inj hq
    unfold checkProposalStatus
    have hpos : 0 < (recordVote p₀ c false).noVotes := by
      simp [recordVote]
    rw [if_pos hpos]

/-- The stored proposal after all three members vote yes. -/
def pW2 : Proposal :=
  { newProposal 0 1 "Tok" "TOK" "demo" [1, 2, 3] 0 with
      votes := [(3, true), (2, true), (1, true)], yesVotes := 3, status := .Passed }

/-- Witness for C2: after the full yes trace the iff holds of the stored
proposal. -/
theorem passed_iff_unanimous_yes_witness :
    (pW2.status = .Passed ∨ pW2.status = .Executed) ↔
      ∀ m ∈ pW2.quorumMembers, findVote pW2.votes m = some true :=
  passed_iff_unanimous_yes.1 100
    [QAction.verify 100 1, QAction.verify 100 2, QAction.verify 100 3,
     QAction.create 1 "Tok" "TOK" "demo" [1, 2, 3] 0,
     QAction.vote 1 0 true 1, QAction.vote 2 0 true 2, QAction.vote 3 0 true 3]
    0 pW2 (by rfl)

theorem createProposal_succeeds_iff (s : QuorumState) (c : Address)
    (n sym d : String) (ms : List Address) (now : Nat) :
    (∃ r, createProposal s c n sym d ms now = .ok r) ↔
      (s.verifiedAgents c = true ∧ 3 ≤ ms.length ∧ ms.length ≤ 5 ∧
       (∀ m ∈ ms, s.verifiedAgents m = true) ∧ ms.Nodup ∧ c ∈ ms) := by
  constructor
  · rintro ⟨⟨s', pid⟩, hok⟩
    obtain ⟨h1, h2, h3, h4, h5, h6, _, _⟩ := createProposal_ok_elim hok
    refine ⟨h1, ?_, ?_, h4, h5, h6⟩
    · unfold MIN_QUORUM_SIZE at h2
      omega
    · unfold MAX_QUORUM_SIZE at h3
      omega
  · rintro ⟨h1, h2, h3, h4, h5, h6⟩
    exact ⟨_, createProposal_ok_intro n sym d now h1
      (by unfold MIN_QUORUM_SIZE; omega) (by unfold MAX_QUORUM_SIZE; omega) h4 h5 h6⟩

theorem finalizeProposal_ok_failed {s : QuorumState} {pid now : Nat} {p : Proposal}
    (hp : s.proposals.get? pid = some p) (hst : p.status = .Active)
    (hdl : p.votingDeadline < now) (hy : p.yesVotes ≠ p.quorumMembers.length) :
    finalizeProposal s pid now =
      .ok { s with proposals := setIdx s.proposals pid { p with status := .Failed } } := by
  unfold finalizeProposal
  rw [hp]
  simp [hst, hy]
  omega

theorem finalizeProposal_ok_noop {s : QuorumState} {pid now : Nat} {p : Proposal}
    (hp : s.proposals.get? pid = some p) (hst : p.status = .Active)
    (hdl : p.votingDeadline < now) (hy : p.yesVotes = p.quorumMembers.length) :
    finalizeProposal s pid now = .ok s := by
  unfold finalizeProposal
  rw [hp]
  simp [hst, hy]
  omega

/-- C4: `finalizeProposal` takes no caller argument (anyone may call it); it
succeeds exactly on an `Active` proposal whose deadline has passed, and then
it leaves every recorded vote and tally untouched, sets the status to
`Failed` whenever the yes count is not the full quorum, leaves the proposal
unchanged otherwise, and never produces `Passed`. -/
theorem finalizeProposal_spec :
    (∀ (s : QuorumState) (pid now : Nat) (p : Proposal),
        s.proposals.get? pid = some p →
        ((∃ s', finalizeProposal s pid now = .ok s') ↔
          (p.status = .Active ∧ p.votingDeadline < now))) ∧
    (∀ (s : QuorumState) (pid now : Nat) (p : Proposal) (s' : QuorumState),
        s.proposals.get? pid = some p → finalizeProposal s pid now = .ok s' →
        ∃ q, s'.proposals.get? pid = some q ∧
          q.votes = p.votes ∧ q.yesVotes = p.yesVotes ∧ q.noVotes = p.noVotes ∧
          q.quorumMembers = p.quorumMembers ∧
          (p.yesVotes ≠ p.quorumMembers.length → q.status = .Failed) ∧
          (p.yesVotes = p.quorumMembers.length → q = p) ∧
          q.status ≠ .Passed) := by
  constructor
  · intro s pid now p hp
    constructor
    · rintro ⟨s', hok⟩
      obtain ⟨p₀, hp₀, hst, hdl, _⟩ := finalizeProposal_ok_elim hok
      have hpp : p₀ = p := Option.some.inj (hp₀.symm.trans hp)
      subst hpp
      exact ⟨hst, hdl⟩
    · rintro ⟨hst, hdl⟩
      by_cases hy : p.yesVotes ≠ p.quorumMembers.length
      · exact ⟨_, finalizeProposal_ok_failed hp hst hdl hy⟩
      · exact ⟨_, finalizeProposal_ok_noop hp hst hdl (not_not.mp hy)⟩
  · intro s pid now p s' hp hok
    obtain ⟨p₀, hp₀, hst, hdl, hcase⟩ := finalizeProposal_ok_elim hok
    have hpp : p₀ = p := Option.some.inj (hp₀.symm.trans hp)
    rw [hpp] at hst hdl hcase
    have hlt : pid < s.proposals.length := lt_length_of_get?_some hp
    rcases hcase with ⟨hy, hs'⟩ | ⟨hy, hs'⟩
    · refine ⟨{ p with status := .Failed }, ?_, rfl, rfl, rfl, rfl,
        fun _ => rfl, fun h => absurd h hy, by simp⟩
      rw [hs']
      exact get?_setIdx_self _ _ _ hlt
    · refine ⟨p, ?_, rfl, rfl, rfl, rfl, fun h => absurd hy h, fun _ => rfl, ?_⟩
      · rw [hs']
        exact hp
      · rw [hst]
        simp

/-- The deployment of `qsW1` after members `1` and `2` vote yes (member `3`
never votes). -/
def sW4 : QuorumState :=
  qrun (initialQuorum 100)
    [QAction.verify 100 1, QAction.verify 100 2, QAction.verify 100 3,
     QAction.create 1 "Tok" "TOK" "demo" [1, 2, 3] 0,
     QAction.vote 1 0 true 1, QAction.vote 2 0 true 2]

/-- The proposal of `sW4`: two of three yes votes, still `Active`. -/
def pW4 : Proposal :=
  { newProposal 0 1 "Tok" "TOK" "demo" [1, 2, 3] 0 with
      votes := [(2, true), (1, true)], yesVotes := 2 }

/-- Witness for C4: finalizing the 2-of-3 proposal after the deadline. -/
theorem finalizeProposal_spec_witness :
    ∃ q, (qstep sW4 (QAction.finalize 0 604801)).proposals.get? 0 = some q ∧
      q.votes = pW4.votes ∧ q.yesVotes = pW4.yesVotes ∧ q.noVotes = pW4.noVotes ∧
      q.quorumMembers = pW4.quorumMembers ∧
      (pW4.yesVotes ≠ pW4.quorumMembers.length → q.status = .Failed) ∧
      (pW4.yesVotes = pW4.quorumMembers.length → q = pW4) ∧
      q.status ≠ .Passed :=
  finalizeProposal_spec.2 sW4 0 604801 pW4 (qstep sW4 (QAction.finalize 0 604801))
    (by rfl) (by rfl)

/-- C5: `executeProposal` succeeds only for the registered bonding-curve
factory as caller and only on a `Passed` proposal (failing with a typed error
and, by the step semantics, no state change otherwise); on success it marks
the proposal `Executed` and adds exactly one to the reputation of each quorum
member, leaving every other reputation untouched, and no other `AgentQuorum`
operation ever changes any reputation counter. -/
theorem executeProposal_spec :
    (∀ (s : QuorumState) (c : Address) (pid : Nat) (s' : QuorumState),
        executeProposal s c pid = .ok s' →
        c = s.bondingCurveFactory ∧
        ∃ p, s.proposals.get? pid = some p ∧ p.status = .Passed ∧
          s'.proposals = setIdx s.proposals pid { p with status := .Executed } ∧
          (∀ a, s'.agentReputation a = s.agentReputation a + countOcc a p.quorumMembers) ∧
          (p.quorumMembers.Nodup →
            ∀ m ∈ p.quorumMembers, s'.agentReputation m = s.agentReputation m + 1) ∧
          (∀ a, a ∉ p.quorumMembers → s'.agentReputation a = s.agentReputation a)) ∧
    (∀ (s : QuorumState) (c : Address) (pid : Nat),
        c ≠ s.bondingCurveFactory → executeProposal s c pid = .error .onlyFactory) ∧
    (∀ (s : QuorumState) (c : Address) (pid : Nat) (p : Proposal),
        s.proposals.get? pid = some p → p.status ≠ .Passed →
        executeProposal s c pid = .error .onlyFactory ∨
        executeProposal s c pid = .error .proposalNotPassed) ∧
    (∀ (s : QuorumState) (a : QAction),
        (∀ c pid, a ≠ QAction.execute c pid) →
        (qstep s a).agentReputation = s.agentReputation) := by
  refine ⟨?_, ?_, ?_, ?_⟩
  · intro s c pid s' hok
    obtain ⟨hc, p, hp, hst, hs'⟩ := executeProposal_ok_elim hok
    refine ⟨hc, p, hp, hst, by rw [hs'], ?_, ?_, ?_⟩
    · intro a
      rw [hs']
      exact bumpReputation_apply _ _ _
    · intro hnd m hm
      rw [hs']
      have := bumpReputation_apply s.agentReputation p.quorumMembers m
      rw [countOcc_eq_one hnd hm] at this
      exact this
    · intro a ha
      rw [hs']
      have := bumpReputation_apply s.agentReputation p.quorumMembers a
      rw [countOcc_eq_zero ha] at this
      simpa using this
  · intro s c pid hc
    unfold executeProposal
    rw [if_pos hc]
  · intro s c pid p hp hst
    by_cases hc : c ≠ s.bondingCurveFactory
    · left
      unfold executeProposal
      rw [if_pos hc]
    · right
      unfold executeProposal
      rw [if_neg hc, hp]
      simp [hst]
  · intro s a hne
    rcases qstep_eq_or_ok s a with he | hok
    · rw [he]
    · cases a with
      | create caller n sym d ms now =>
        simp only [qapply, Except.map] at hok
        cases hcr : createProposal s caller n sym d ms now with
        | error e =>
          rw [hcr] at hok
          cases hok
        | ok r =>
          rw [hcr] at hok
          obtain ⟨q, pid'⟩ := r
          obtain ⟨_, _, _, _, _, _, _, hq⟩ := createProposal_ok_elim hcr
          have hqe : qstep s (QAction.create caller n sym d ms now) = q := by
            cases hok
            rfl
          rw [hqe, hq]
      | vote caller pid v now =>
        obtain ⟨p₀, _, _, _, _, _, hs'⟩ := castVote_ok_elim hok
        rw [hs']
      | finalize pid now =>
        obtain ⟨p₀, _, _, _, hcase⟩ := finalizeProposal_ok_elim hok
        rcases hcase with ⟨_, hs'⟩ | ⟨_, hs'⟩
        · rw [hs']
        · rw [hs']
      | execute caller pid => exact absurd rfl (hne caller pid)
      | verify caller agent =>
        obtain ⟨_, hr, _⟩ := verifyAgent_ok_elim hok
        exact hr
      | unverify caller agent =>
        obtain ⟨_, hr, _⟩ := unverifyAgent_ok_elim hok
        exact hr
      | setFactory caller factory =>
        obtain ⟨_, hr⟩ := setBondingCurveFactory_ok_elim hok
        exact hr

/-- The deployment after a fully approved proposal: factory address `200` is
registered and all three members voted yes. -/
def sW5 : QuorumState :=
  qrun (initialQuorum 100)
    [QAction.verify 100 1, QAction.verify 100 2, QAction.verify 100 3,
     QAction.setFactory 100 200,
     QAction.create 1 "Tok" "TOK" "demo" [1, 2, 3] 0,
     QAction.vote 1 0 true 1, QAction.vote 2 0 true 2, QAction.vote 3 0 true 3]

/-- Witness for C5: the factory executes the passed proposal. -/
theorem executeProposal_spec_witness :
    200 = sW5.bondingCurveFactory ∧
    ∃ p, sW5.proposals.get? 0 = some p ∧ p.status = .Passed ∧
      (qstep sW5 (QAction.execute 200 0)).proposals =
        setIdx sW5.proposals 0 { p with status := .Executed } ∧
      (∀ a, (qstep sW5 (QAction.execute 200 0)).agentReputation a =
        sW5.agentReputation a + countOcc a p.quorumMembers) ∧
      (p.quorumMembers.Nodup →
        ∀ m ∈ p.quorumMembers, (qstep sW5 (QAction.execute 200 0)).agentReputation m =
          sW5.agentReputation m + 1) ∧
      (∀ a, a ∉ p.quorumMembers →
        (qstep sW5 (QAction.execute 200 0)).agentReputation a = sW5.agentReputation a) :=
  executeProposal_spec.1 sW5 200 0 (qstep sW5 (QAction.execute 200 0)) (by rfl)

/-- C6: `createProposal` succeeds exactly when the caller is a verified
agent, the member list has 3 to 5 pairwise-distinct entries, all members are
verified and the caller is among them; any violation yields a typed error
(and, by the step semantics, no state change); on success it appends a fresh
proposal with status `Active` and a deadline exactly 7 days after `now`, and
returns the monotonically assigned id (the previous proposal count). -/
theorem createProposal_spec :
    (∀ (s : QuorumState) (c : Address) (n sym d : String) (ms : List Address) (now : Nat),
        (∃ r, createProposal s c n sym d ms now = .ok r) ↔
          (s.verifiedAgents c = true ∧ 3 ≤ ms.length ∧ ms.length ≤ 5 ∧
           (∀ m ∈ ms, s.verifiedAgents m = true) ∧ ms.Nodup ∧ c ∈ ms)) ∧
    (∀ (s : QuorumState) (c : Address) (n sym d : String) (ms : List Address)
        (now : Nat) (s' : QuorumState) (pid : Nat),
        createProposal s c n sym d ms now = .ok (s', pid) →
        pid = s.proposals.length ∧
        s'.proposals = s.proposals ++ [newProposal pid c n sym d ms now] ∧
        s'.proposals.get? pid = some (newProposal pid c n sym d ms now) ∧
        (newProposal pid c n sym d ms now).status = .Active ∧
        (newProposal pid c n sym d ms now).votingDeadline = now + 7 * 86400 ∧
        s'.verifiedAgents = s.verifiedAgents ∧
        s'.agentReputation = s.agentReputation) ∧
    (∀ (s : QuorumState) (c : Address) (n sym d : String) (ms : List Address) (now : Nat),
        ¬ (s.verifiedAgents c = true ∧ 3 ≤ ms.length ∧ ms.length ≤ 5 ∧
           (∀ m ∈ ms, s.verifiedAgents m = true) ∧ ms.Nodup ∧ c ∈ ms) →
        ∃ e, createProposal s c n sym d ms now = .error e) := by
  refine ⟨createProposal_succeeds_iff, ?_, ?_⟩
  · intro s c n sym d ms now s' pid hok
    obtain ⟨_, _, _, _, _, _, hpid, hs'⟩ := createProposal_ok_elim hok
    subst hpid
    refine ⟨rfl, by rw [hs'], ?_, rfl, rfl, by rw [hs'], by rw [hs']⟩
    rw [hs']
    exact get?_concat_self _ _
  · intro s c n sym d ms now hcond
    cases hres : createProposal s c n sym d ms now with
    | error e => exact ⟨e, rfl⟩
    | ok r =>
      exact absurd ((createProposal_succeeds_iff s c n sym d ms now).mp ⟨r, hres⟩) hcond

/-- The deployment with agents `1`, `2`, `3` verified and no proposal yet. -/
def sW6 : QuorumState :=
  qrun (initialQuorum 100)
    [QAction.verify 100 1, QAction.verify 100 2, QAction.verify 100 3]

/-- Witness for C6: agent `1` creates a proposal with quorum `[1, 2, 3]`. -/
theorem createProposal_spec_witness :
    0 = sW6.proposals.length ∧
    (qstep sW6 (QAction.create 1 "Tok" "TOK" "demo" [1, 2, 3] 40)).proposals =
      sW6.proposals ++ [newProposal 0 1 "Tok" "TOK" "demo" [1, 2, 3] 40] ∧
    (qstep sW6 (QAction.create 1 "Tok" "TOK" "demo" [1, 2, 3] 40)).proposals.get? 0 =
      some (newProposal 0 1 "Tok" "TOK" "demo" [1, 2, 3] 40) ∧
    (newProposal 0 1 "Tok" "TOK" "demo" [1, 2, 3] 40).status = .Active ∧
    (newProposal 0 1 "Tok" "TOK" "demo" [1, 2, 3] 40).votingDeadline = 40 + 7 * 86400 ∧
    (qstep sW6 (QAction.create 1 "Tok" "TOK" "demo" [1, 2, 3] 40)).verifiedAgents =
      sW6.verifiedAgents ∧
    (qstep sW6 (QAction.create 1 "Tok" "TOK" "demo" [1, 2, 3] 40)).agentReputation =
      sW6.agentReputation :=
  createProposal_spec.2.1 sW6 1 "Tok" "TOK" "demo" [1, 2, 3] 40
    (qstep sW6 (QAction.create 1 "Tok" "TOK" "demo" [1, 2, 3] 40)) 0 (by rfl)

/-- C9: a quorum member's right to vote is decided only by membership in the
proposal's stored member list — `castVote` never consults `verifiedAgents` —
so a member can still vote (given an `Active` proposal, an open deadline and
no prior vote) even after the admin unverified them post-creation. -/
theorem vote_eligibility_frozen :
    (∀ (s : QuorumState) (c : Address) (pid : Nat) (p : Proposal) (v : Bool) (now : Nat),
        s.proposals.get? pid = some p → p.status = .Active → now ≤ p.votingDeadline →
        c ∈ p.quorumMembers → hasVotedIn p.votes c = false →
        ∃ s', castVote s c pid v now = .ok s') ∧
    (∀ (s : QuorumState) (adm ag : Address) (s₁ : QuorumState) (c : Address)
        (pid : Nat) (p : Proposal) (v : Bool) (now : Nat),
        unverifyAgent s adm ag = .ok s₁ →
        s.proposals.get? pid = some p → p.status = .Active → now ≤ p.votingDeadline →
        c ∈ p.quorumMembers → hasVotedIn p.votes c = false →
        ∃ s', castVote s₁ c pid v now = .ok s') ∧
    (∀ (s : QuorumState) (V : Address → Bool) (c : Address) (pid : Nat) (v : Bool)
        (now : Nat),
        (∃ s', castVote { s with verifiedAgents := V } c pid v now = .ok s') ↔
        (∃ s', castVote s c pid v now = .ok s')) := by
  refine ⟨?_, ?_, ?_⟩
  · intro s c pid p v now hp hst hdl hmem hnv
    exact ⟨_, castVote_ok_intro v hp hst hdl hmem hnv⟩
  · intro s adm ag s₁ c pid p v now hun hp hst hdl hmem hnv
    obtain ⟨hprops, _, _⟩ := unverifyAgent_ok_elim hun
    have hp₁ : s₁.proposals.get? pid = some p := by
      rw [hprops]
      exact hp
    exact ⟨_, castVote_ok_intro v hp₁ hst hdl hmem hnv⟩
  · intro s V c pid v now
    constructor
    · rintro ⟨s', hok⟩
      obtain ⟨p, hp, hst, hdl, hmem, hnv, _⟩ := castVote_ok_elim hok
      exact ⟨_, castVote_ok_intro v hp hst hdl hmem hnv⟩
    · rintro ⟨s', hok⟩
      obtain ⟨p, hp, hst, hdl, hmem, hnv, _⟩ := castVote_ok_elim hok
      have hp' : ({ s with verifiedAgents := V } : QuorumState).proposals.get? pid = some p := hp
      exact ⟨_, castVote_ok_intro v hp' hst hdl hmem hnv⟩

/-- Witness for C9: agent `2` still votes after the admin unverifies them. -/
theorem vote_eligibility_frozen_witness :
    ∃ s', castVote (qstep qsW1 (QAction.unverify 100 2)) 2 0 true 5 = .ok s' :=
  vote_eligibility_frozen.2.1 qsW1 100 2 (qstep qsW1 (QAction.unverify 100 2)) 2 0 pW1
    true 5 (by rfl) (by rfl) (by rfl) (by decide) (by decide) (by rfl)

theorem executeProposal_ok_intro {s : QuorumState} {c : Address} {pid : Nat}
    {p : Proposal} (hc : c = s.bondingCurveFactory)
    (hp : s.proposals.get? pid = some p) (hst : p.status = .Passed) :
    executeProposal s c pid =
      .ok { s with
              proposals := setIdx s.proposals pid { p with status := .Executed }
              agentReputation := bumpReputation s.agentReputation p.quorumMembers } := by
  unfold executeProposal
  rw [if_neg (by simp [hc]), hp]
  simp [hst]

theorem launchToken_ok_elim {fs : FactoryState} {c : Address} {pid : Nat}
    {fs' : FactoryState} {tok : Address}
    (h : launchToken fs c pid = .ok (fs', tok)) :
    ∃ p, fs.quorum.proposals.get? pid = some p ∧ p.status = .Passed ∧
      fs.proposalToToken pid = none ∧ tok = freshTokenAddr fs ∧
      ∃ q', executeProposal fs.quorum fs.factoryAddr pid = .ok q' ∧
        fs' = { fs with
                  quorum := q'
                  proposalToToken := fun q => if q = pid then some tok else fs.proposalToToken q
                  allTokens := fs.allTokens ++ [tok] } := by
  unfold launchToken at h
  split at h
  · cases h
  · rename_i p hp
    split at h
    · cases h
    · rename_i hst
      split at h
      · cases h
      · rename_i hsome
        split at h
        · cases h
        · rename_i q' hq'
          cases h
          refine ⟨p, hp, not_not.mp hst, ?_, rfl, q', hq', rfl⟩
          cases ho : fs.proposalToToken pid with
          | none => rfl
          | some t =>
            rw [ho] at hsome
            simp at hsome

/-- C3: `launchToken` succeeds only on a `Passed` proposal with no token yet
recorded for the id (a `Passed` proposal whose token is already recorded
fails with `AlreadyLaunched`); the call is atomic — on success the token is
recorded for exactly this id, appended to `allTokens` and the proposal is
flagged `Executed`, all together, while any failure (embedded as
`Except.error`) changes nothing — so at most one token ever exists per
proposal and a second launch of the same id always fails. -/
theorem launchToken_spec :
    (∀ (fs : FactoryState) (c : Address) (pid : Nat) (fs' : FactoryState) (tok : Address),
        launchToken fs c pid = .ok (fs', tok) →
        ∃ p, fs.quorum.proposals.get? pid = some p ∧ p.status = .Passed ∧
          fs.proposalToToken pid = none ∧
          fs'.proposalToToken pid = some tok ∧
          (∀ q, q ≠ pid → fs'.proposalToToken q = fs.proposalToToken q) ∧
          fs'.quorum.proposals.get? pid = some { p with status := .Executed } ∧
          fs'.allTokens = fs.allTokens ++ [tok]) ∧
    (∀ (fs : FactoryState) (c : Address) (pid : Nat) (fs' : FactoryState)
        (tok : Address) (c₂ : Address),
        launchToken fs c pid = .ok (fs', tok) →
        ∃ e, launchToken fs' c₂ pid = .error e) ∧
    (∀ (fs : FactoryState) (c : Address) (pid : Nat) (p : Proposal),
        fs.quorum.proposals.get? pid = some p → p.status = .Passed →
        fs.proposalToToken pid ≠ none →
        launchToken fs c pid = .error .alreadyLaunched) ∧
    (∀ (fs : FactoryState) (c : Address) (pid : Nat) (e : QErr),
        launchToken fs c pid = .error e → fstep fs c pid = fs) := by
  have hmain : ∀ (fs : FactoryState) (c : Address) (pid : Nat) (fs' : FactoryState)
      (tok : Address),
      launchToken fs c pid = .ok (fs', tok) →
      ∃ p, fs.quorum.proposals.get? pid = some p ∧ p.status = .Passed ∧
        fs.proposalToToken pid = none ∧
        fs'.proposalToToken pid = some tok ∧
        (∀ q, q ≠ pid → fs'.proposalToToken q = fs.proposalToToken q) ∧
        fs'.quorum.proposals.get? pid = some { p with status := .Executed } ∧
        fs'.allTokens = fs.allTokens ++ [tok] := by
    intro fs c pid fs' tok h
    obtain ⟨p, hp, hst, hnone, htok, q', hq', hfs'⟩ := launchToken_ok_elim h
    obtain ⟨_, p₀, hp₀, _, hqs⟩ := executeProposal_ok_elim hq'
    have hpp : p₀ = p := Option.some.inj (hp₀.symm.trans hp)
    rw [hpp] at hqs
    have hlt : pid < fs.quorum.proposals.length := lt_length_of_get?_some hp
    refine ⟨p, hp, hst, hnone, ?_, ?_, ?_, ?_⟩
    · rw [hfs']
      simp
    · intro q hq
      rw [hfs']
      simp [hq]
    · rw [hfs', hqs]
      exact get?_setIdx_self _ _ _ hlt
    · rw [hfs']
  refine ⟨hmain, ?_, ?_, ?_⟩
  · intro fs c pid fs' tok c₂ h
    obtain ⟨p, _, _, _, _, _, hq, _⟩ := hmain fs c pid fs' tok h
    refine ⟨.proposalNotPassed, ?_⟩
    unfold launchToken
    rw [hq]
    simp
  · intro fs c pid p hp hst hsome
    cases ho : fs.proposalToToken pid with
    | none => exact absurd ho hsome
    | some t =>
      unfold launchToken
      rw [hp]
      simp [hst, ho]
  · intro fs c pid e h
    simp only [fstep]
    rw [h]

/-- A deployed factory at address `200`, linked to the quorum state `sW5`
whose proposal `0` has passed; no token launched yet. -/
def fsW3 : FactoryState :=
  { quorum := sW5
    proposalToToken := fun _ => none
    allTokens := []
    factoryAddr := 200 }

/-- Witness for C3: launching proposal `0` on the concrete factory. -/
theorem launchToken_spec_witness :
    ∃ p, fsW3.quorum.proposals.get? 0 = some p ∧ p.status = .Passed ∧
      fsW3.proposalToToken 0 = none ∧
      (fstep fsW3 7 0).proposalToToken 0 = some 1000000 ∧
      (∀ q, q ≠ 0 → (fstep fsW3 7 0).proposalToToken q = fsW3.proposalToToken q) ∧
      (fstep fsW3 7 0).quorum.proposals.get? 0 = some { p with status := .Executed } ∧
      (fstep fsW3 7 0).allTokens = fsW3.allTokens ++ [1000000] :=
  launchToken_spec.1 fsW3 7 0 (fstep fsW3 7 0) 1000000 (by rfl)

/-- C10: `launchToken` never inspects its caller — the result is the same for
every caller, and with the factory registered in the quorum contract any
caller at all successfully launches a `Passed`, not-yet-launched proposal;
the only caller check sits on the Proposal-Engine side, where
`executeProposal` insists the caller be the registered factory address. -/
theorem launchToken_no_caller_restriction :
    (∀ (fs : FactoryState) (c₁ c₂ : Address) (pid : Nat),
        launchToken fs c₁ pid = launchToken fs c₂ pid) ∧
    (∀ (fs : FactoryState) (c : Address) (pid : Nat) (p : Proposal),
        fs.quorum.bondingCurveFactory = fs.factoryAddr →
        fs.quorum.proposals.get? pid = some p → p.status = .Passed →
        fs.proposalToToken pid = none →
        ∃ fs' tok, launchToken fs c pid = .ok (fs', tok)) ∧
    (∀ (s : QuorumState) (c : Address) (pid : Nat),
        c ≠ s.bondingCurveFactory → executeProposal s c pid = .error .onlyFactory) := by
  refine ⟨fun fs c₁ c₂ pid => rfl, ?_, ?_⟩
  · intro fs c pid p hfact hp hst hnone
    have hexec := executeProposal_ok_intro hfact.symm hp hst
    cases hres : launchToken fs c pid with
    | ok r =>
      obtain ⟨fs', tok⟩ := r
      exact ⟨fs', tok, rfl⟩
    | error e =>
      unfold launchToken at hres
      rw [hp] at hres
      simp [hst, hnone, hexec] at hres
  · intro s c pid hc
    unfold executeProposal
    rw [if_pos hc]

/-- Witness for C10: a random caller (`77`) launches the passed proposal. -/
theorem launchToken_no_caller_restriction_witness :
    ∃ fs' tok, launchToken fsW3 77 0 = .ok (fs', tok) :=
  launchToken_no_caller_restriction.2.1 fsW3 77 0 pW2 (by rfl) (by rfl) (by rfl) (by rfl)

/-- C7: the schema's default fee basis points are 3000/6000/1000 (30%, 60%,
10%) and sum to exactly 10000; a market is created with those defaults and no
operation ever changes its three bps values; and for every trade record ever
produced, the platform fee plus liquidity fee plus agent fee equals the fee
base times the summed basis points divided by 10000, in exact `Nat`
arithmetic. -/
theorem fee_split_spec :
    (platformBpsDefault + liquidityBpsDefault + agentBpsDefault = 10000) ∧
    (∀ cap basePrice slope threshold : Nat,
        (createMarket cap basePrice slope threshold).platformBps = platformBpsDefault ∧
        (createMarket cap basePrice slope threshold).liquidityBps = liquidityBpsDefault ∧
        (createMarket cap basePrice slope threshold).agentBps = agentBpsDefault ∧
        validFees (createMarket cap basePrice slope threshold).platformBps
          (createMarket cap basePrice slope threshold).liquidityBps
          (createMarket cap basePrice slope threshold).agentBps) ∧
    (∀ (m : Market) (a : MAction),
        (mstep m a).platformBps = m.platformBps ∧
        (mstep m a).liquidityBps = m.liquidityBps ∧
        (mstep m a).agentBps = m.agentBps) ∧
    (∀ base pBps lBps aBps : Nat, validFees pBps lBps aBps →
        (splitFees base pBps lBps aBps).1 + (splitFees base pBps lBps aBps).2.1 +
          (splitFees base pBps lBps aBps).2.2 = base * (pBps + lBps + aBps) / 10000) ∧
    (∀ (cap basePrice slope threshold : Nat) (acts : List MAction),
        validFees (mrun (createMarket cap basePrice slope threshold) acts).platformBps
          (mrun (createMarket cap basePrice slope threshold) acts).liquidityBps
          (mrun (createMarket cap basePrice slope threshold) acts).agentBps ∧
        tradesOK (mrun (createMarket cap basePrice slope threshold) acts)) := by
  refine ⟨by decide, ?_, mstep_bps, fun base p l a h => splitFees_sum h, ?_⟩
  · intro cap basePrice slope threshold
    exact ⟨rfl, rfl, rfl, by unfold validFees createMarket; rfl⟩
  · intro cap basePrice slope threshold acts
    refine mrun_validFees_tradesOK _ _ ?_ ?_
    · unfold validFees createMarket
      rfl
    · intro tr htr
      simp [createMarket] at htr

/-- Witness for C7: the exact split of a concrete fee base under the default
basis points. -/
theorem fee_split_spec_witness :
    (splitFees 12345 3000 6000 1000).1 + (splitFees 12345 3000 6000 1000).2.1 +
      (splitFees 12345 3000 6000 1000).2.2 = 12345 * (3000 + 6000 + 1000) / 10000 :=
  fee_split_spec.2.2.2.1 12345 3000 6000 1000 (by unfold validFees; decide)

/-- C8: `graduated` is a one-way latch — once true, every `buy` or `sell`
fails with `MarketClosed` (leaving the market unchanged under the step
semantics) and no operation sequence ever resets it; a successful buy starts
from a non-graduated market and sets the latch exactly when the new
`ethRaised` reaches the threshold; a sell never touches the latch; and a
`migrate` after a successful `migrate` succeeds as a no-op. -/
theorem graduation_latch_spec :
    (∀ (m : Market) (e : Nat), m.graduated = true → buy m e = .error .marketClosed) ∧
    (∀ (m : Market) (a : Nat), m.graduated = true → sell m a = .error .marketClosed) ∧
    (∀ (m : Market) (e : Nat) (m' : Market), buy m e = .ok m' →
        m.graduated = false ∧ m'.ethRaised = m.ethRaised + e ∧
        (m'.graduated = true ↔ m.graduationThreshold ≤ m'.ethRaised)) ∧
    (∀ (m : Market) (a : Nat) (m' : Market), sell m a = .ok m' →
        m'.graduated = m.graduated) ∧
    (∀ (m m₁ : Market), migrate m = .ok m₁ →
        m₁.graduated = m.graduated ∧ migrate m₁ = .ok m₁) ∧
    (∀ (m : Market) (acts : List MAction), m.graduated = true →
        (mrun m acts).graduated = true) := by
  refine ⟨fun m e hg => buy_closed hg e, fun m a hg => sell_closed hg a, ?_, ?_, ?_,
    mrun_graduated_mono⟩
  · intro m e m' h
    obtain ⟨hg, _, _, rfl⟩ := buy_ok_elim h
    refine ⟨hg, rfl, ?_⟩
    show (if m.graduationThreshold ≤ m.ethRaised + e then true else m.graduated) = true ↔
      m.graduationThreshold ≤ m.ethRaised + e
    by_cases hth : m.graduationThreshold ≤ m.ethRaised + e
    · simp [hth]
    · simp [hth, hg]
  · intro m a m' h
    obtain ⟨_, _, _, _, rfl⟩ := sell_ok_elim h
    rfl
  · intro m m₁ h
    obtain ⟨hg, hcase⟩ := migrate_ok_elim h
    rcases hcase with ⟨hmig, rfl⟩ | ⟨hmig, rfl⟩
    · refine ⟨rfl, ?_⟩
      unfold migrate
      rw [if_neg (by simp [hg]), if_pos hmig]
    · refine ⟨rfl, ?_⟩
      unfold migrate
      rw [if_neg (by simp [hg])]
      rfl

/-- A fresh market (cap 1000000, base price 1, slope 0, threshold 10) after a
first buy of 6: `ethRaised = 6`, not yet graduated. -/
def mW8 : Market := mstep (createMarket 1000000 1 0 10) (MAction.buyA 6)

/-- Witness for C8: the second buy of 5 pushes `ethRaised` to 11 and latches
graduation. -/
theorem graduation_latch_spec_witness :
    mW8.graduated = false ∧
    (mstep mW8 (MAction.buyA 5)).ethRaised = mW8.ethRaised + 5 ∧
    ((mstep mW8 (MAction.buyA 5)).graduated = true ↔
      mW8.graduationThreshold ≤ (mstep mW8 (MAction.buyA 5)).ethRaised) :=
  graduation_latch_spec.2.2.1 mW8 5 (mstep mW8 (MAction.buyA 5)) (by rfl)

end HeadlessMarkets
